import Mathlib

/-!
Verification development for the LU-KPA-LEE-LIBROS playback engine.

The definitions below are a shallow embedding of the TypeScript source:
strings are modelled as `List Char`, JavaScript array indexing (which
yields `undefined` out of range) as `Option`, and code paths that would
raise a `TypeError` (touching a property of `undefined`) as `Except Unit`.
Arithmetic on JavaScript numbers that stay integral is modelled by `Int`
(`Nat` where the source value is always a non-negative count), and the
playback-rate arithmetic by `ℚ`.
-/

namespace Lukpa

/-- The fixed chunk budget `CHUNK_CHAR_LIMIT` from `useSpeechSynthesis.ts`. -/
def CHUNK_CHAR_LIMIT : Nat := 250

/-- Whitespace predicate used to model `String.prototype.trim` (the ASCII
whitespace characters; the Unicode extras of JS `trim` play no role here). -/
def isWsChar (c : Char) : Bool :=
  c = ' ' || c = '\t' || c = '\n' || c = '\r' || c = '\x0b' || c = '\x0c'

/-- Model of `String.prototype.trim`: drop whitespace from both ends. -/
def trim (s : List Char) : List Char :=
  ((s.dropWhile isWsChar).reverse.dropWhile isWsChar).reverse

/-- All non-whitespace characters of a string, in order. -/
def removeWs (s : List Char) : List Char := s.filter (fun c => !isWsChar c)

/-- Model of `String.prototype.lastIndexOf(c, fromIdx)`: the greatest index
`≤ fromIdx` holding `c`, or `-1` (searching downward from `fromIdx`). -/
def lastIndexOfAux (text : List Char) (c : Char) : Nat → Int
  | 0 => if text[0]? = some c then 0 else -1
  | j+1 => if text[j+1]? = some c then ((j+1 : Nat) : Int) else lastIndexOfAux text c j

/-- `text.lastIndexOf(c, fromIdx)` from the source. -/
def lastIndexOf (text : List Char) (c : Char) (fromIdx : Nat) : Int :=
  lastIndexOfAux text c fromIdx

/-- The cut-point computation of one iteration of the `chunkText` loop:
look ahead `CHUNK_CHAR_LIMIT` characters; if that window does not reach the
end, search backward for `.`, then `?`, then `!` strictly after the cursor
and cut just after it, else cut at the hard boundary. -/
def computeChunkEnd (text : List Char) (i : Nat) : Nat :=
  let chunkEnd := i + CHUNK_CHAR_LIMIT
  if chunkEnd < text.length then
    let s1 := lastIndexOf text '.' chunkEnd
    let s2 := if s1 ≤ (i : Int) then lastIndexOf text '?' chunkEnd else s1
    let s3 := if s2 ≤ (i : Int) then lastIndexOf text '!' chunkEnd else s2
    if (i : Int) < s3 then (s3 + 1).toNat else chunkEnd
  else chunkEnd

/-- The `while` loop of `chunkText`, with explicit fuel (the cursor advances
by at least one character each iteration, so `text.length` steps suffice). -/
def chunkTextGo (text : List Char) : Nat → Nat → List (List Char)
  | 0, _ => []
  | fuel+1, i =>
    if i < text.length then
      let chunkEnd := computeChunkEnd text i
      let chunk := trim ((text.drop i).take (chunkEnd - i))
      if chunk.isEmpty then chunkTextGo text fuel chunkEnd
      else chunk :: chunkTextGo text fuel chunkEnd
    else []

/-- `chunkText` from `useSpeechSynthesis.ts` (lines 6-27). -/
def chunkText (text : List Char) : List (List Char) :=
  if text.isEmpty then [] else chunkTextGo text text.length 0

/-- The same loop, but recording every raw (pre-trim) window that the loop
cuts, including the ones whose trim is empty and hence dropped. -/
def chunkWindowsGo (text : List Char) : Nat → Nat → List (List Char)
  | 0, _ => []
  | fuel+1, i =>
    if i < text.length then
      let chunkEnd := computeChunkEnd text i
      ((text.drop i).take (chunkEnd - i)) :: chunkWindowsGo text fuel chunkEnd
    else []

/-- The pre-trim windows corresponding to `chunkText text`. -/
def chunkWindows (text : List Char) : List (List Char) :=
  if text.isEmpty then [] else chunkWindowsGo text text.length 0

/-! ### Chunker lemmas -/

theorem lastIndexOfAux_le (text : List Char) (c : Char) :
    ∀ j, lastIndexOfAux text c j ≤ (j : Int) := by
  intro j
  induction j with
  | zero => simp only [lastIndexOfAux]; split <;> omega
  | succ j ih =>
    simp only [lastIndexOfAux]
    split
    · omega
    · calc lastIndexOfAux text c j ≤ (j : Int) := ih
        _ ≤ ((j + 1 : Nat) : Int) := by push_cast; omega

theorem computeChunkEnd_le (text : List Char) (i : Nat) :
    computeChunkEnd text i ≤ i + CHUNK_CHAR_LIMIT + 1 := by
  have h1 : lastIndexOf text '.' (i + CHUNK_CHAR_LIMIT)
      ≤ ((i + CHUNK_CHAR_LIMIT : Nat) : Int) := lastIndexOfAux_le ..
  have h2 : lastIndexOf text '?' (i + CHUNK_CHAR_LIMIT)
      ≤ ((i + CHUNK_CHAR_LIMIT : Nat) : Int) := lastIndexOfAux_le ..
  have h3 : lastIndexOf text '!' (i + CHUNK_CHAR_LIMIT)
      ≤ ((i + CHUNK_CHAR_LIMIT : Nat) : Int) := lastIndexOfAux_le ..
  simp only [computeChunkEnd]
  repeat' split
  all_goals omega

theorem computeChunkEnd_gt (text : List Char) (i : Nat) :
    i < computeChunkEnd text i := by
  have hL : 0 < CHUNK_CHAR_LIMIT := by decide
  simp only [computeChunkEnd]
  repeat' split
  all_goals omega

section TrimLemmas

variable {α : Type} (p : α → Bool)

theorem dropWhile_head?_false {l : List α} {a : α}
    (h : (l.dropWhile p).head? = some a) : p a = false := by
  induction l with
  | nil => simp [List.dropWhile] at h
  | cons b t ih =>
    rw [List.dropWhile_cons] at h
    by_cases hb : p b = true
    · simp only [hb, if_true] at h; exact ih h
    · simp only [Bool.not_eq_true] at hb
      simp only [hb, Bool.false_eq_true, if_false, List.head?_cons] at h
      cases h; exact hb

theorem dropWhile_eq_self_of_head {l : List α}
    (h : ∀ a, l.head? = some a → p a = false) : l.dropWhile p = l := by
  cases l with
  | nil => rfl
  | cons b t =>
    rw [List.dropWhile_cons, h b rfl]
    simp

theorem getLast?_dropWhile_of_ne_nil {l : List α}
    (h : l.dropWhile p ≠ []) : (l.dropWhile p).getLast? = l.getLast? := by
  induction l with
  | nil => rfl
  | cons b t ih =>
    rw [List.dropWhile_cons]
    rw [List.dropWhile_cons] at h
    by_cases hb : p b = true
    · simp only [hb, if_true] at h ⊢
      rw [ih h]
      have ht : t ≠ [] := by
        intro hnil; rw [hnil] at h; simp [List.dropWhile] at h
      cases t with
      | nil => exact absurd rfl ht
      | cons c u => rw [List.getLast?_cons_cons]
    · simp only [Bool.not_eq_true] at hb
      simp [hb]

theorem dropWhile_idem (l : List α) :
    (l.dropWhile p).dropWhile p = l.dropWhile p := by
  apply dropWhile_eq_self_of_head
  intro a h
  exact dropWhile_head?_false p h

theorem filter_not_dropWhile (l : List α) :
    (l.dropWhile p).filter (fun c => !p c) = l.filter (fun c => !p c) := by
  induction l with
  | nil => rfl
  | cons b t ih =>
    rw [List.dropWhile_cons]
    by_cases hb : p b = true
    · simp [hb, ih, List.filter_cons]
    · simp only [Bool.not_eq_true] at hb
      simp [hb]

end TrimLemmas

theorem removeWs_dropWhile (l : List Char) :
    removeWs (l.dropWhile isWsChar) = removeWs l :=
  filter_not_dropWhile isWsChar l

theorem removeWs_reverse (l : List Char) :
    removeWs l.reverse = (removeWs l).reverse :=
  List.filter_reverse ..

theorem removeWs_trim (s : List Char) : removeWs (trim s) = removeWs s := by
  unfold trim
  rw [removeWs_reverse, removeWs_dropWhile, removeWs_reverse, List.reverse_reverse,
    removeWs_dropWhile]

theorem trim_eq_nil_removeWs {s : List Char} (h : trim s = []) : removeWs s = [] := by
  have := removeWs_trim s
  rw [h] at this
  exact this.symm

theorem trim_trim (s : List Char) : trim (trim s) = trim s := by
  by_cases hnil : trim s = []
  · rw [hnil]; rfl
  · set u := s.dropWhile isWsChar with hu
    set v := u.reverse.dropWhile isWsChar with hv
    have htrim : trim s = v.reverse := rfl
    have hvne : v ≠ [] := by
      intro h; apply hnil; rw [htrim, h]; rfl
    have hune : u ≠ [] := by
      intro h
      apply hvne
      rw [hv, h]
      rfl
    -- the head of `trim s` is the head of `v.reverse`, i.e. the last of `v`,
    -- i.e. the last of `u.reverse`, i.e. the head of `u`, which is not whitespace
    have hheadu : ∀ a, u.head? = some a → isWsChar a = false := fun a ha =>
      dropWhile_head?_false isWsChar (hu ▸ ha)
    have hrevhead : ∀ a, v.reverse.head? = some a → isWsChar a = false := by
      intro a ha
      rw [List.head?_reverse] at ha
      rw [getLast?_dropWhile_of_ne_nil isWsChar (hv ▸ hvne), List.getLast?_reverse] at ha
      exact hheadu a ha
    have hstep1 : v.reverse.dropWhile isWsChar = v.reverse :=
      dropWhile_eq_self_of_head isWsChar hrevhead
    have hstep2 : v.dropWhile isWsChar = v := by
      rw [hv]; exact dropWhile_idem ..
    show ((v.reverse.dropWhile isWsChar).reverse.dropWhile isWsChar).reverse = v.reverse
    rw [hstep1, List.reverse_reverse, hstep2]

theorem trim_length_le (s : List Char) : (trim s).length ≤ s.length := by
  unfold trim
  calc ((s.dropWhile isWsChar).reverse.dropWhile isWsChar).reverse.length
      = ((s.dropWhile isWsChar).reverse.dropWhile isWsChar).length := List.length_reverse ..
    _ ≤ (s.dropWhile isWsChar).reverse.length := (List.dropWhile_sublist ..).length_le
    _ = (s.dropWhile isWsChar).length := List.length_reverse ..
    _ ≤ s.length := (List.dropWhile_sublist ..).length_le

theorem chunkTextGo_eq_filter (text : List Char) :
    ∀ fuel i, chunkTextGo text fuel i =
      ((chunkWindowsGo text fuel i).map trim).filter (fun c => !c.isEmpty) := by
  intro fuel
  induction fuel with
  | zero => intro i; rfl
  | succ fuel ih =>
    intro i
    rw [chunkTextGo, chunkWindowsGo]
    split
    · rw [List.map_cons, List.filter_cons]
      by_cases hmt : (trim ((text.drop i).take (computeChunkEnd text i - i))).isEmpty = true
      · simp only [hmt, if_true, Bool.not_true, Bool.false_eq_true, if_false]
        exact ih _
      · simp only [Bool.not_eq_true] at hmt
        simp only [hmt, Bool.false_eq_true, if_false, Bool.not_false, if_true]
        rw [ih _]
    · rfl

theorem chunkWindowsGo_flatten (text : List Char) :
    ∀ fuel i, text.length - i ≤ fuel →
      (chunkWindowsGo text fuel i).flatten = text.drop i := by
  intro fuel
  induction fuel with
  | zero =>
    intro i h
    have : text.length ≤ i := by omega
    simp [chunkWindowsGo, List.drop_eq_nil_of_le this]
  | succ fuel ih =>
    intro i h
    rw [chunkWindowsGo]
    split
    · next hi =>
      rw [List.flatten_cons]
      have hgt := computeChunkEnd_gt text i
      rw [ih (computeChunkEnd text i) (by omega)]
      have hdd : text.drop (computeChunkEnd text i)
          = (text.drop i).drop (computeChunkEnd text i - i) := by
        rw [List.drop_drop]
        congr 1
        omega
      rw [hdd, List.take_append_drop]
    · next hi =>
      have : text.length ≤ i := by omega
      simp [List.drop_eq_nil_of_le this]

theorem chunkWindowsGo_length_le (text : List Char) :
    ∀ fuel i w, w ∈ chunkWindowsGo text fuel i →
      w.length ≤ CHUNK_CHAR_LIMIT + 1 := by
  intro fuel
  induction fuel with
  | zero => intro i w hw; simp [chunkWindowsGo] at hw
  | succ fuel ih =>
    intro i w hw
    rw [chunkWindowsGo] at hw
    revert hw
    split
    · intro hw
      rcases List.mem_cons.mp hw with h | h
      · subst h
        calc ((text.drop i).take (computeChunkEnd text i - i)).length
            ≤ computeChunkEnd text i - i := List.length_take_le ..
          _ ≤ CHUNK_CHAR_LIMIT + 1 := by
              have := computeChunkEnd_le text i
              omega
      · exact ih _ w h
    · intro hw; simp at hw

theorem removeWs_append (a b : List Char) :
    removeWs (a ++ b) = removeWs a ++ removeWs b :=
  List.filter_append ..

theorem removeWs_flatten_filter (L : List (List Char)) :
    removeWs ((L.map trim).filter (fun c => !c.isEmpty)).flatten
      = removeWs L.flatten := by
  induction L with
  | nil => rfl
  | cons w rest ih =>
    rw [List.map_cons, List.filter_cons, List.flatten_cons]
    by_cases hmt : (trim w).isEmpty = true
    · simp only [hmt, Bool.not_true, Bool.false_eq_true, if_false]
      have hwnil : removeWs w = [] :=
        trim_eq_nil_removeWs (List.isEmpty_iff.mp hmt)
      rw [removeWs_append, hwnil, List.nil_append]
      exact ih
    · simp only [Bool.not_eq_true] at hmt
      simp only [hmt, Bool.not_false, if_true]
      rw [List.flatten_cons, removeWs_append, removeWs_append, removeWs_trim, ih]

/-- C1: for every input, the chunks of `chunkText text` are non-empty and equal
to their own trim; every pre-trim window has length at most
`CHUNK_CHAR_LIMIT + 1` (251, not 250: a sentence terminator exactly at the
250-character lookahead boundary is still accepted, and the cut lands just
after it); the chunks are exactly the non-empty trims of the windows; and
concatenating the chunks reproduces the non-whitespace content of the text. -/
theorem chunkText_spec (text : List Char) :
    (∀ c ∈ chunkText text, c ≠ [] ∧ trim c = c ∧ c.length ≤ CHUNK_CHAR_LIMIT + 1) ∧
    (∀ w ∈ chunkWindows text, w.length ≤ CHUNK_CHAR_LIMIT + 1) ∧
    chunkText text = ((chunkWindows text).map trim).filter (fun c => !c.isEmpty) ∧
    removeWs (chunkText text).flatten = removeWs text := by
  have heq : chunkText text
      = ((chunkWindows text).map trim).filter (fun c => !c.isEmpty) := by
    unfold chunkText chunkWindows
    split
    · rfl
    · exact chunkTextGo_eq_filter text text.length 0
  refine ⟨?_, ?_, heq, ?_⟩
  · intro c hc
    rw [heq] at hc
    have hmem := List.mem_filter.mp hc
    rcases List.mem_map.mp hmem.1 with ⟨w, hw, hwc⟩
    have hne : c ≠ [] := by
      intro h
      rw [h] at hmem
      simp at hmem
    refine ⟨hne, ?_, ?_⟩
    · rw [← hwc, trim_trim]
    · rw [← hwc]
      calc (trim w).length ≤ w.length := trim_length_le w
        _ ≤ CHUNK_CHAR_LIMIT + 1 := by
            unfold chunkWindows at hw
            revert hw
            split
            · intro hw; simp at hw
            · intro hw; exact chunkWindowsGo_length_le text text.length 0 w hw
  · intro w hw
    unfold chunkWindows at hw
    revert hw
    split
    · intro hw; simp at hw
    · intro hw; exact chunkWindowsGo_length_le text text.length 0 w hw
  · rw [heq]
    unfold chunkWindows
    split
    · next hemp =>
      rw [List.isEmpty_iff.mp hemp]
      rfl
    · rw [removeWs_flatten_filter]
      rw [chunkWindowsGo_flatten text text.length 0 (by omega), List.drop_zero]

/-- Witness for C1 at a concrete input, discharging the membership
hypotheses of `chunkText_spec`. -/
theorem chunkText_spec_witness :
    (['H', 'i', '.'] ∈ chunkText (' ' :: ['H', 'i', '.']) ∧
      ['H', 'i', '.'] ≠ [] ∧ trim ['H', 'i', '.'] = ['H', 'i', '.'] ∧
      ['H', 'i', '.'].length ≤ CHUNK_CHAR_LIMIT + 1) ∧
    removeWs (chunkText (' ' :: ['H', 'i', '.'])).flatten
      = removeWs (' ' :: ['H', 'i', '.']) :=
  ⟨⟨by decide, (chunkText_spec (' ' :: ['H', 'i', '.'])).1 ['H', 'i', '.'] (by decide)⟩,
    (chunkText_spec (' ' :: ['H', 'i', '.'])).2.2.2⟩

/-- The concrete text refuting the 250-character pre-trim bound of C1:
250 letters followed by a period and one more letter. -/
def c1Text : List Char := List.replicate 250 'a' ++ ['.', 'b']

set_option maxRecDepth 100000 in
/-- C1 counterexample: on `c1Text` the first cut window (and the first
emitted chunk, which contains no whitespace) has length 251 > 250, because
`lastIndexOf('.', 250)` also inspects index 250 itself. -/
theorem chunkText_budget_cex :
    (chunkWindows c1Text).map List.length = [251, 1] ∧
    (chunkText c1Text).map List.length = [251, 1] ∧ ¬(251 ≤ 250) := by
  refine ⟨?_, ?_, by decide⟩ <;> decide

/-! ### Position model and seek arithmetic (`skip`, lines 292-343)

`chapterChunks` is a list of chapters, each a list of chunk strings.
JavaScript array indexing yields `undefined` out of range (`Option`); the
`skip` loops read `.length` off such accesses without optional chaining,
which throws a `TypeError` when the value is `undefined` — modelled by
`Except Unit`.  The loop indices are JavaScript numbers that transiently go
negative, hence `Int`. -/

/-- A book as chunked for narration: one list of chunk strings per chapter. -/
abbrev Book := List (List (List Char))

/-- JS array indexing: `undefined` (i.e. `none`) out of range or for a
negative index. -/
def jsIdx {α : Type} (l : List α) (i : Int) : Option α :=
  if i < 0 then none else l[i.toNat]?

/-- Reading a property of a possibly-`undefined` JS value: `none` throws. -/
def req {α : Type} : Option α → Except Unit α
  | some a => .ok a
  | none => .error ()

/-- The chunk list of chapter `c` (empty list out of range). -/
def rowOf (book : Book) (c : Nat) : List (List Char) := book.getD c []

/-- The chunk at `(c, k)` (empty out of range). -/
def chunkOf (book : Book) (c k : Nat) : List Char := (rowOf book c).getD k []

/-- Total characters of a chapter's chunks. -/
def sumLens (row : List (List Char)) : Nat := (row.map List.length).sum

/-- Total characters of the whole book's chunks. -/
def bookChars (book : Book) : Nat := (book.map sumLens).sum

/-- Total number of chunks in the book. -/
def chunkCount (book : Book) : Nat := (book.map List.length).sum

/-- Fuel that strictly dominates the number of iterations either `skip`
loop can make. -/
def skipFuel (book : Book) : Nat := chunkCount book + book.length + 2

/-- The first (backward) `while` loop of `skip`: walk to earlier chunks
while the character cursor is negative, clamping at `(0,0,0)`. -/
def backLoop (book : Book) : Nat → Int → Int → Int → Except Unit (Int × Int × Int)
  | 0, _, _, _ => .error ()
  | fuel+1, chap, chunk, char =>
    if char < 0 then
      let chunk1 := chunk - 1
      if chunk1 < 0 then
        let chap1 := chap - 1
        if chap1 < 0 then .ok (0, 0, 0)
        else do
          let row ← req (jsIdx book chap1)
          let chunk2 := (row.length : Int) - 1
          let cur ← req (jsIdx row chunk2)
          backLoop book fuel chap1 chunk2 (char + cur.length)
      else do
        let cur ← req ((jsIdx book chap).bind (fun row => jsIdx row chunk1))
        backLoop book fuel chap chunk1 (char + cur.length)
    else .ok (chap, chunk, char)

/-- The second (forward) `while` loop of `skip`: walk to later chunks while
the cursor is at or past the current chunk's length, clamping at the last
character of the last chunk of the last chapter. -/
def fwdLoop (book : Book) : Nat → Int → Int → Int → Except Unit (Int × Int × Int)
  | 0, _, _, _ => .error ()
  | fuel+1, chap, chunk, char =>
    let curLen := (((jsIdx book chap).bind (fun row => jsIdx row chunk)).map List.length).getD 0
    if (curLen : Int) ≤ char then do
      let cur ← req ((jsIdx book chap).bind (fun row => jsIdx row chunk))
      let char1 := char - cur.length
      let chunk1 := chunk + 1
      let row ← req (jsIdx book chap)
      if (row.length : Int) ≤ chunk1 then
        let chap1 := chap + 1
        if (book.length : Int) ≤ chap1 then do
          let chap2 := (book.length : Int) - 1
          let lastRow ← req (jsIdx book chap2)
          let chunk2 := (lastRow.length : Int) - 1
          let lastChunk ← req (jsIdx lastRow chunk2)
          .ok (chap2, chunk2, (lastChunk.length : Int) - 1)
        else fwdLoop book fuel chap1 0 char1
      else fwdLoop book fuel chap chunk1 char1
    else .ok (chap, chunk, char)

/-- The seek arithmetic of `skip`: add the character offset, then run the
backward and forward normalisation loops. -/
def skipPos (book : Book) (chap chunk char0 charOffset : Int) :
    Except Unit (Int × Int × Int) := do
  let r ← backLoop book (skipFuel book) chap chunk (char0 + charOffset)
  fwdLoop book (skipFuel book) r.1 r.2.1 r.2.2

/-- Characters of the first `k` chunks of a chapter. -/
def charsBeforeChunk : List (List Char) → Nat → Nat
  | _, 0 => 0
  | [], _+1 => 0
  | ch :: rest, k+1 => ch.length + charsBeforeChunk rest k

/-- Characters of the first `c` chapters. -/
def charsBeforeChap : Book → Nat → Nat
  | _, 0 => 0
  | [], _+1 => 0
  | row :: rest, c+1 => sumLens row + charsBeforeChap rest c

/-- The global character index of position `(c, k, x)`. -/
def gIndex (book : Book) (c k x : Nat) : Nat :=
  charsBeforeChap book c + charsBeforeChunk (rowOf book c) k + x

/-- Characters from position `(c, k, 0)` to the end of the book. -/
def restBook (book : Book) (c k : Nat) : Nat :=
  sumLens ((rowOf book c).drop k) + bookChars (book.drop (c+1))

/-- Number of chunks from `(c, k)` (inclusive) to the end of the book. -/
def restCount : Book → Nat → Nat → Nat
  | [], _, _ => 0
  | row :: rest, 0, k => (row.length - k) + chunkCount rest
  | _ :: rest, c+1, k => restCount rest c k

/-- Number of chunks strictly before `(c, k)`. -/
def backCount : Book → Nat → Nat → Nat
  | [], _, k => k
  | _ :: _, 0, k => k
  | row :: rest, c+1, k => row.length + backCount rest c k

/-- Position `(c, k, x)` is in normal form: all three indices strictly
within range. -/
def NormPos (book : Book) (c k x : Nat) : Prop :=
  c < book.length ∧ k < (rowOf book c).length ∧ x < (chunkOf book c k).length

instance (book : Book) (c k x : Nat) : Decidable (NormPos book c k x) := by
  unfold NormPos; infer_instance

/-- Every chapter produced at least one chunk, every chunk is a non-empty
string, and the book has at least one chapter (the shape `chunkText`
guarantees for chapters with text). -/
def WellFormedBook (book : Book) : Prop :=
  book ≠ [] ∧ ∀ row ∈ book, row ≠ [] ∧ ∀ ch ∈ row, ch ≠ []

instance (book : Book) : Decidable (WellFormedBook book) := by
  unfold WellFormedBook; infer_instance

instance {ε α : Type} [DecidableEq ε] [DecidableEq α] : DecidableEq (Except ε α) := by
  intro a b
  cases a <;> cases b
  case error.error e1 e2 =>
    exact if h : e1 = e2 then .isTrue (by rw [h]) else .isFalse (by simp [h])
  case error.ok => exact .isFalse (by simp)
  case ok.error => exact .isFalse (by simp)
  case ok.ok a1 a2 =>
    exact if h : a1 = a2 then .isTrue (by rw [h]) else .isFalse (by simp [h])

/-- The clamp target of forward seeking: last character of the last chunk
of the last chapter. -/
def lastPos (book : Book) : Int × Int × Int :=
  ((book.length : Int) - 1,
   ((rowOf book (book.length - 1)).length : Int) - 1,
   ((chunkOf book (book.length - 1) ((rowOf book (book.length - 1)).length - 1)).length : Int) - 1)

/-! ### Access and prefix-sum lemmas -/

theorem jsIdx_of_lt {α : Type} (l : List α) (c : Nat) (d : α) (h : c < l.length) :
    jsIdx l (c : Int) = some (l.getD c d) := by
  simp only [jsIdx, Int.toNat_natCast]
  rw [if_neg (by omega), List.getElem?_eq_getElem h, List.getD_eq_getElem l d h]

theorem rowOf_mem {book : Book} {c : Nat} (h : c < book.length) :
    rowOf book c ∈ book := by
  rw [rowOf, List.getD_eq_getElem book [] h]
  exact List.getElem_mem h

theorem sumLens_cons (ch : List Char) (rest : List (List Char)) :
    sumLens (ch :: rest) = ch.length + sumLens rest := by
  simp [sumLens]

theorem bookChars_cons (row : List (List Char)) (rest : Book) :
    bookChars (row :: rest) = sumLens row + bookChars rest := by
  simp [bookChars]

theorem chunkCount_cons (row : List (List Char)) (rest : Book) :
    chunkCount (row :: rest) = row.length + chunkCount rest := by
  simp [chunkCount]

theorem charsBeforeChunk_add_rest (row : List (List Char)) :
    ∀ k, charsBeforeChunk row k + sumLens (row.drop k) = sumLens row := by
  induction row with
  | nil => intro k; cases k <;> simp [charsBeforeChunk, sumLens]
  | cons ch rest ih =>
    intro k
    cases k with
    | zero => simp [charsBeforeChunk]
    | succ k =>
      rw [charsBeforeChunk, List.drop_succ_cons, sumLens_cons]
      have := ih k
      omega

theorem charsBeforeChunk_succ (row : List (List Char)) :
    ∀ k, k < row.length →
      charsBeforeChunk row (k+1) = charsBeforeChunk row k + (row.getD k []).length := by
  induction row with
  | nil => intro k hk; simp at hk
  | cons ch rest ih =>
    intro k hk
    cases k with
    | zero => simp [charsBeforeChunk]
    | succ k =>
      rw [charsBeforeChunk, charsBeforeChunk, List.getD_cons_succ]
      have hk' : k < rest.length := by simpa using hk
      rw [ih k hk']
      omega

theorem charsBeforeChunk_full (row : List (List Char)) :
    charsBeforeChunk row row.length = sumLens row := by
  have := charsBeforeChunk_add_rest row row.length
  rw [List.drop_length] at this
  simpa [sumLens] using this

theorem charsBeforeChunk_mono (row : List (List Char)) :
    ∀ k k', k ≤ k' → charsBeforeChunk row k ≤ charsBeforeChunk row k' := by
  induction row with
  | nil =>
    intro k k' _
    cases k <;> cases k' <;> simp [charsBeforeChunk]
  | cons ch rest ih =>
    intro k k' hkk
    cases k with
    | zero => cases k' <;> simp [charsBeforeChunk]
    | succ k =>
      cases k' with
      | zero => omega
      | succ k' =>
        rw [charsBeforeChunk, charsBeforeChunk]
        have := ih k k' (by omega)
        omega

theorem charsBeforeChap_succ (book : Book) :
    ∀ c, c < book.length →
      charsBeforeChap book (c+1) = charsBeforeChap book c + sumLens (rowOf book c) := by
  induction book with
  | nil => intro c hc; simp at hc
  | cons row rest ih =>
    intro c hc
    cases c with
    | zero => simp [charsBeforeChap, rowOf]
    | succ c =>
      rw [charsBeforeChap, charsBeforeChap]
      have hc' : c < rest.length := by simpa using hc
      rw [ih c hc']
      have hrow : rowOf (row :: rest) (c+1) = rowOf rest c := by
        simp [rowOf]
      rw [hrow]
      omega

theorem charsBeforeChap_mono (book : Book) :
    ∀ c c', c ≤ c' → charsBeforeChap book c ≤ charsBeforeChap book c' := by
  induction book with
  | nil =>
    intro c c' _
    cases c <;> cases c' <;> simp [charsBeforeChap]
  | cons row rest ih =>
    intro c c' hcc
    cases c with
    | zero => cases c' <;> simp [charsBeforeChap]
    | succ c =>
      cases c' with
      | zero => omega
      | succ c' =>
        rw [charsBeforeChap, charsBeforeChap]
        have := ih c c' (by omega)
        omega

theorem charsBeforeChap_add_rest (book : Book) :
    ∀ c, charsBeforeChap book c + bookChars (book.drop c) = bookChars book := by
  induction book with
  | nil => intro c; cases c <;> simp [charsBeforeChap, bookChars]
  | cons row rest ih =>
    intro c
    cases c with
    | zero => simp [charsBeforeChap]
    | succ c =>
      rw [charsBeforeChap, List.drop_succ_cons, bookChars_cons]
      have := ih c
      omega

theorem bookChars_drop (book : Book) :
    ∀ c, c < book.length →
      bookChars (book.drop c) = sumLens (rowOf book c) + bookChars (book.drop (c+1)) := by
  intro c hc
  rw [List.drop_eq_getElem_cons hc, bookChars_cons]
  congr 1
  rw [rowOf, List.getD_eq_getElem book [] hc]

theorem gIndex_x (book : Book) (c k x : Nat) :
    gIndex book c k x = gIndex book c k 0 + x := by
  simp [gIndex]

theorem gIndex_chunk_succ (book : Book) (c k : Nat) (hk : k < (rowOf book c).length) :
    gIndex book c (k+1) 0 = gIndex book c k 0 + (chunkOf book c k).length := by
  simp only [gIndex, chunkOf]
  rw [charsBeforeChunk_succ (rowOf book c) k hk]
  omega

theorem gIndex_chap_step (book : Book) (c k : Nat) (hc : c < book.length)
    (hk : k + 1 = (rowOf book c).length) :
    gIndex book (c+1) 0 0 = gIndex book c k 0 + (chunkOf book c k).length := by
  simp only [gIndex, chunkOf, charsBeforeChunk]
  rw [charsBeforeChap_succ book c hc]
  have h1 := charsBeforeChunk_succ (rowOf book c) k (by omega)
  have h2 := charsBeforeChunk_full (rowOf book c)
  rw [hk] at h1
  omega

theorem restBook_chunk_step (book : Book) (c k : Nat) (hk : k < (rowOf book c).length) :
    restBook book c k = (chunkOf book c k).length + restBook book c (k+1) := by
  simp only [restBook, chunkOf]
  rw [List.drop_eq_getElem_cons hk, sumLens_cons,
    List.getD_eq_getElem (rowOf book c) [] hk]
  omega

theorem restBook_chap_step (book : Book) (c k : Nat) (hc1 : c + 1 < book.length)
    (hk : k + 1 = (rowOf book c).length) :
    restBook book c k = (chunkOf book c k).length + restBook book (c+1) 0 := by
  rw [restBook_chunk_step book c k (by omega)]
  congr 1
  simp only [restBook, hk, List.drop_length]
  rw [bookChars_drop book (c+1) hc1]
  simp [sumLens]

theorem restBook_last (book : Book) (c k : Nat) (hc : c + 1 = book.length)
    (hk : k + 1 = (rowOf book c).length) :
    restBook book c k = (chunkOf book c k).length := by
  rw [restBook_chunk_step book c k (by omega)]
  simp only [restBook, hk, List.drop_length, hc]
  simp [sumLens, bookChars]

theorem restBook_ge_len (book : Book) (c k : Nat) (hk : k < (rowOf book c).length) :
    (chunkOf book c k).length ≤ restBook book c k := by
  rw [restBook_chunk_step book c k hk]
  omega

theorem gIndex_add_restBook (book : Book) (c k : Nat) (hc : c < book.length) :
    gIndex book c k 0 + restBook book c k = bookChars book := by
  simp only [gIndex, restBook]
  have h1 := charsBeforeChunk_add_rest (rowOf book c) k
  have h2 := bookChars_drop book c hc
  have h3 := charsBeforeChap_add_rest book c
  omega

theorem gIndex_lt_bookChars (book : Book) {c k x : Nat} (h : NormPos book c k x) :
    gIndex book c k x < bookChars book := by
  obtain ⟨hc, hk, hx⟩ := h
  rw [gIndex_x]
  have h1 := restBook_ge_len book c k hk
  have h2 := gIndex_add_restBook book c k hc
  omega

theorem restCount_le (book : Book) :
    ∀ c k, restCount book c k ≤ chunkCount book := by
  induction book with
  | nil => intro c k; simp [restCount]
  | cons row rest ih =>
    intro c k
    cases c with
    | zero => rw [restCount, chunkCount_cons]; omega
    | succ c =>
      rw [restCount, chunkCount_cons]
      have := ih c k
      omega

theorem restCount_chunk_step (book : Book) :
    ∀ c k, c < book.length → k < (rowOf book c).length →
      restCount book c k = restCount book c (k+1) + 1 := by
  induction book with
  | nil => intro c k hc; simp at hc
  | cons row rest ih =>
    intro c k hc hk
    cases c with
    | zero =>
      rw [restCount, restCount]
      have : k < row.length := by simpa [rowOf] using hk
      omega
    | succ c =>
      rw [restCount, restCount]
      exact ih c k (by simpa using hc) (by simpa [rowOf] using hk)

theorem restCount_chap_step (book : Book) :
    ∀ c, c + 1 < book.length →
      restCount book c (rowOf book c).length = restCount book (c+1) 0 := by
  induction book with
  | nil => intro c hc; simp at hc
  | cons row rest ih =>
    intro c hc
    cases c with
    | zero =>
      rw [restCount, restCount]
      have hrow : rowOf (row :: rest) 0 = row := by simp [rowOf]
      rw [hrow]
      have h1 : 0 < rest.length := by simpa using hc
      cases rest with
      | nil => simp at h1
      | cons r2 rr =>
        rw [restCount, chunkCount_cons]
        omega
    | succ c =>
      rw [restCount, restCount]
      have hrow : rowOf (row :: rest) (c+1) = rowOf rest c := by simp [rowOf]
      rw [hrow]
      exact ih c (by simpa using hc)

theorem backCount_k (book : Book) :
    ∀ c k, backCount book c k = k + backCount book c 0 := by
  induction book with
  | nil => intro c k; simp [backCount]
  | cons row rest ih =>
    intro c k
    cases c with
    | zero => simp [backCount]
    | succ c =>
      rw [backCount, backCount]
      have := ih c k
      omega

theorem backCount_zero (book : Book) : backCount book 0 0 = 0 := by
  cases book <;> simp [backCount]

theorem backCount_chap (book : Book) :
    ∀ c, c < book.length →
      backCount book (c+1) 0 = (rowOf book c).length + backCount book c 0 := by
  induction book with
  | nil => intro c hc; simp at hc
  | cons row rest ih =>
    intro c hc
    cases c with
    | zero => simp [backCount, rowOf, backCount_zero]
    | succ c =>
      rw [backCount, backCount]
      have hrow : rowOf (row :: rest) (c+1) = rowOf rest c := by simp [rowOf]
      rw [hrow, ih c (by simpa using hc)]
      omega

theorem backCount_le (book : Book) :
    ∀ c k, c < book.length → k ≤ (rowOf book c).length →
      backCount book c k ≤ chunkCount book := by
  induction book with
  | nil => intro c k hc; simp at hc
  | cons row rest ih =>
    intro c k hc hk
    cases c with
    | zero =>
      rw [backCount, chunkCount_cons]
      have : k ≤ row.length := by simpa [rowOf] using hk
      omega
    | succ c =>
      rw [backCount, chunkCount_cons]
      have := ih c k (by simpa using hc) (by simpa [rowOf] using hk)
      omega

/-- Strict monotonicity of the global index in the position order: the key
to uniqueness of normal forms. -/
theorem gIndex_lt_of_pos_lt (book : Book) {c1 k1 x1 c2 k2 x2 : Nat}
    (h1 : NormPos book c1 k1 x1) (h2 : NormPos book c2 k2 x2)
    (hlt : c1 < c2 ∨ (c1 = c2 ∧ (k1 < k2 ∨ (k1 = k2 ∧ x1 < x2)))) :
    gIndex book c1 k1 x1 < gIndex book c2 k2 x2 := by
  obtain ⟨hc1, hk1, hx1⟩ := h1
  obtain ⟨hc2, hk2, hx2⟩ := h2
  have hstep1 : charsBeforeChunk (rowOf book c1) k1 + x1
      < charsBeforeChunk (rowOf book c1) (k1+1) := by
    rw [charsBeforeChunk_succ (rowOf book c1) k1 hk1]
    have : x1 < (chunkOf book c1 k1).length := hx1
    simp only [chunkOf] at this
    omega
  rcases hlt with hcc | ⟨rfl, hkk⟩
  · -- different chapters
    have hup : charsBeforeChunk (rowOf book c1) (k1+1) ≤ sumLens (rowOf book c1) := by
      have := charsBeforeChunk_mono (rowOf book c1) (k1+1) (rowOf book c1).length hk1
      rw [charsBeforeChunk_full] at this
      exact this
    have hchap : charsBeforeChap book (c1+1) ≤ charsBeforeChap book c2 :=
      charsBeforeChap_mono book (c1+1) c2 hcc
    have hsucc := charsBeforeChap_succ book c1 hc1
    simp only [gIndex]
    omega
  · rcases hkk with hkk | ⟨rfl, hxx⟩
    · -- same chapter, different chunks
      have hmono : charsBeforeChunk (rowOf book c1) (k1+1)
          ≤ charsBeforeChunk (rowOf book c1) k2 :=
        charsBeforeChunk_mono (rowOf book c1) (k1+1) k2 hkk
      simp only [gIndex]
      omega
    · simp only [gIndex]
      omega

/-- Uniqueness of normal-form positions with a given global index. -/
theorem gIndex_inj (book : Book) {c1 k1 x1 c2 k2 x2 : Nat}
    (h1 : NormPos book c1 k1 x1) (h2 : NormPos book c2 k2 x2)
    (heq : gIndex book c1 k1 x1 = gIndex book c2 k2 x2) :
    c1 = c2 ∧ k1 = k2 ∧ x1 = x2 := by
  by_contra hne
  have htri : (c1 < c2 ∨ (c1 = c2 ∧ (k1 < k2 ∨ (k1 = k2 ∧ x1 < x2)))) ∨
      (c2 < c1 ∨ (c2 = c1 ∧ (k2 < k1 ∨ (k2 = k1 ∧ x2 < x1)))) := by
    by_cases hc : c1 = c2
    · subst hc
      by_cases hk : k1 = k2
      · subst hk
        have hx : x1 ≠ x2 := by
          intro h
          exact hne ⟨rfl, rfl, h⟩
        omega
      · omega
    · omega
  rcases htri with h | h
  · exact absurd heq (Nat.ne_of_lt (gIndex_lt_of_pos_lt book h1 h2 h))
  · exact absurd heq.symm (Nat.ne_of_lt (gIndex_lt_of_pos_lt book h2 h1 h))

/-! ### Loop correctness -/

theorem req_some {α : Type} (a : α) : req (some a) = .ok a := rfl

theorem req_none {α : Type} : req (none : Option α) = .error () := rfl

theorem ok_bind {α β : Type} (a : α) (f : α → Except Unit β) :
    (Except.ok a >>= f) = f a := rfl

theorem error_bind {α β : Type} (f : α → Except Unit β) :
    ((Except.error () : Except Unit α) >>= f) = .error () := rfl

theorem jsRow (book : Book) (c : Nat) (hc : c < book.length) :
    jsIdx book (c : Int) = some (rowOf book c) :=
  jsIdx_of_lt book c [] hc

theorem jsChunk (book : Book) (c k : Nat) (hc : c < book.length)
    (hk : k < (rowOf book c).length) :
    ((jsIdx book (c : Int)).bind fun row => jsIdx row (k : Int))
      = some (chunkOf book c k) := by
  rw [jsRow book c hc, Option.some_bind, jsIdx_of_lt (rowOf book c) k [] hk, chunkOf]

theorem rowOf_ne_nil {book : Book} (hrow : ∀ row ∈ book, row ≠ []) {c : Nat}
    (hc : c < book.length) : 0 < (rowOf book c).length :=
  List.length_pos.mpr (hrow _ (rowOf_mem hc))

/-- Behaviour of the backward `skip` loop on a valid starting position:
a non-negative cursor returns immediately; a cursor whose global index is
negative clamps at `(0,0,0)`; otherwise the loop lands on the unique
normal-form position with the same global index. -/
theorem backLoop_spec (book : Book) (hrow : ∀ row ∈ book, row ≠ []) :
    ∀ fuel (c k : Nat) (char : Int), c < book.length → k < (rowOf book c).length →
      backCount book c k < fuel →
      (if 0 ≤ char then
        backLoop book fuel (c : Int) (k : Int) char = .ok ((c : Int), (k : Int), char)
      else if (gIndex book c k 0 : Int) + char < 0 then
        backLoop book fuel (c : Int) (k : Int) char = .ok (0, 0, 0)
      else ∃ c' k' x' : Nat, NormPos book c' k' x' ∧
        backLoop book fuel (c : Int) (k : Int) char
          = .ok ((c' : Int), (k' : Int), (x' : Int)) ∧
        ((gIndex book c' k' x' : Nat) : Int) = (gIndex book c k 0 : Int) + char) := by
  intro fuel
  induction fuel with
  | zero =>
    intro c k char hc hk hfuel
    exact absurd hfuel (Nat.not_lt_zero _)
  | succ fuel ih =>
    intro c k char hc hk hfuel
    by_cases hch : 0 ≤ char
    · rw [if_pos hch]
      rw [backLoop, if_neg (by omega)]
    · rw [if_neg hch]
      by_cases hk0 : k = 0
      · subst hk0
        by_cases hc0 : c = 0
        · subst hc0
          have hrun : backLoop book (fuel+1) ((0:Nat) : Int) ((0:Nat) : Int) char
              = .ok (0, 0, 0) := by
            rw [backLoop, if_pos (by omega), if_pos (by omega), if_pos (by omega)]
          have hg : gIndex book 0 0 0 = 0 := by
            simp [gIndex, charsBeforeChap, charsBeforeChunk]
          rw [if_pos (by rw [hg]; omega), hrun]
        · -- walk back into the previous chapter
          have hc1 : c - 1 < book.length := by omega
          have hlen1 := rowOf_ne_nil hrow hc1
          set k1 := (rowOf book (c-1)).length - 1 with hk1def
          have hk1 : k1 < (rowOf book (c-1)).length := by omega
          set len := (chunkOf book (c-1) k1).length with hlendef
          have hrun : backLoop book (fuel+1) (c : Int) ((0:Nat) : Int) char
              = backLoop book fuel ((c - 1 : Nat) : Int) (k1 : Int) (char + len) := by
            rw [backLoop, if_pos (by omega), if_pos (by omega), if_neg (by omega),
              show (c : Int) - 1 = ((c - 1 : Nat) : Int) by omega,
              jsRow book (c-1) hc1, req_some, ok_bind]
            rw [show ((rowOf book (c-1)).length : Int) - 1 = (k1 : Int) by omega]
            simp only [jsIdx_of_lt (rowOf book (c-1)) k1 [] hk1, req_some, ok_bind]
            rfl
          have hfuel1 : backCount book (c-1) k1 < fuel := by
            have hbk := backCount_k book (c-1) k1
            have hbc := backCount_chap book (c-1) hc1
            rw [show c - 1 + 1 = c by omega] at hbc
            have hbk0 := backCount_k book c 0
            omega
          have hstep : (gIndex book c 0 0 : Int)
              = (gIndex book (c-1) k1 0 : Int) + (len : Int) := by
            have h := gIndex_chap_step book (c-1) k1 hc1 (by omega)
            rw [show c - 1 + 1 = c by omega] at h
            rw [h]
            push_cast
            ring
          have IH := ih (c-1) k1 (char + len) hc1 hk1 hfuel1
          by_cases hnn : 0 ≤ char + (len : Int)
          · rw [if_pos hnn] at IH
            rw [if_neg (by omega)]
            refine ⟨c - 1, k1, (char + len).toNat, ⟨hc1, hk1, by omega⟩, ?_,
              by rw [gIndex_x]; push_cast; omega⟩
            rw [hrun, IH, Int.toNat_of_nonneg hnn]
          · rw [if_neg hnn] at IH
            by_cases hg : (gIndex book (c-1) k1 0 : Int) + (char + len) < 0
            · rw [if_pos hg] at IH
              rw [if_pos (by omega), hrun, IH]
            · rw [if_neg hg] at IH
              obtain ⟨c', k', x', hn, hloop, hgi⟩ := IH
              rw [if_neg (by omega)]
              exact ⟨c', k', x', hn, by rw [hrun, hloop], by omega⟩
      · -- walk back one chunk in the same chapter
        have hk1 : k - 1 < (rowOf book c).length := by omega
        set len := (chunkOf book c (k-1)).length with hlendef
        have hrun : backLoop book (fuel+1) (c : Int) (k : Int) char
            = backLoop book fuel (c : Int) ((k - 1 : Nat) : Int) (char + len) := by
          rw [backLoop, if_pos (by omega), if_neg (by omega),
            show (k : Int) - 1 = ((k - 1 : Nat) : Int) by omega,
            jsChunk book c (k-1) hc hk1, req_some, ok_bind]
        have hfuel1 : backCount book c (k-1) < fuel := by
          have h1 := backCount_k book c (k-1)
          have h2 := backCount_k book c k
          omega
        have hstep : (gIndex book c k 0 : Int)
            = (gIndex book c (k-1) 0 : Int) + (len : Int) := by
          have h := gIndex_chunk_succ book c (k-1) (by omega)
          rw [show k - 1 + 1 = k by omega] at h
          rw [h]
          push_cast
          ring
        have IH := ih c (k-1) (char + len) hc hk1 hfuel1
        by_cases hnn : 0 ≤ char + (len : Int)
        · rw [if_pos hnn] at IH
          rw [if_neg (by omega)]
          refine ⟨c, k - 1, (char + len).toNat, ⟨hc, hk1, by omega⟩, ?_,
            by rw [gIndex_x]; push_cast; omega⟩
          rw [hrun, IH, Int.toNat_of_nonneg hnn]
        · rw [if_neg hnn] at IH
          by_cases hg : (gIndex book c (k-1) 0 : Int) + (char + len) < 0
          · rw [if_pos hg] at IH
            rw [if_pos (by omega), hrun, IH]
          · rw [if_neg hg] at IH
            obtain ⟨c', k', x', hn, hloop, hgi⟩ := IH
            rw [if_neg (by omega)]
            exact ⟨c', k', x', hn, by rw [hrun, hloop], by omega⟩

/-- Behaviour of the forward `skip` loop on a valid starting position with a
non-negative cursor: if the cursor stays within the characters remaining
from the current chunk to the end of the book, the loop lands on the unique
normal-form position with global index advanced by the cursor; otherwise it
clamps at `lastPos`. -/
theorem fwdLoop_spec (book : Book) (hrow : ∀ row ∈ book, row ≠ []) :
    ∀ fuel (c k : Nat) (char : Int), c < book.length → k < (rowOf book c).length →
      0 ≤ char → restCount book c k < fuel →
      (if char < (restBook book c k : Int) then
        ∃ c' k' x' : Nat, NormPos book c' k' x' ∧
          fwdLoop book fuel (c : Int) (k : Int) char
            = .ok ((c' : Int), (k' : Int), (x' : Int)) ∧
          ((gIndex book c' k' x' : Nat) : Int) = (gIndex book c k 0 : Int) + char
      else fwdLoop book fuel (c : Int) (k : Int) char = .ok (lastPos book)) := by
  intro fuel
  induction fuel with
  | zero =>
    intro c k char hc hk hch hfuel
    exact absurd hfuel (Nat.not_lt_zero _)
  | succ fuel ih =>
    intro c k char hc hk hch hfuel
    have hgd : (rowOf book c).getD k [] = chunkOf book c k := rfl
    set len := (chunkOf book c k).length with hlendef
    by_cases hlt : char < (len : Int)
    · -- the cursor fits in the current chunk: the loop exits at once
      have hrun : fwdLoop book (fuel+1) (c : Int) (k : Int) char
          = .ok ((c : Int), (k : Int), char) := by
        rw [fwdLoop]
        simp only [jsRow book c hc, Option.some_bind, jsIdx_of_lt (rowOf book c) k [] hk,
          Option.map_some', Option.getD_some, req_some, ok_bind, hgd]
        rw [if_neg (by omega)]
      have hlen_le := restBook_ge_len book c k hk
      rw [if_pos (by omega)]
      exact ⟨c, k, char.toNat, ⟨hc, hk, by omega⟩,
        by rw [hrun, Int.toNat_of_nonneg hch],
        by rw [gIndex_x]; push_cast; omega⟩
    · -- consume the current chunk
      by_cases hkk : k + 1 < (rowOf book c).length
      · -- advance to the next chunk of the same chapter
        have hrun : fwdLoop book (fuel+1) (c : Int) (k : Int) char
            = fwdLoop book fuel (c : Int) ((k + 1 : Nat) : Int) (char - len) := by
          rw [fwdLoop]
          simp only [jsRow book c hc, Option.some_bind, jsIdx_of_lt (rowOf book c) k [] hk,
            Option.map_some', Option.getD_some, req_some, ok_bind, hgd]
          rw [if_pos (by omega), if_neg (by omega)]
          norm_cast
        have hfuel1 : restCount book c (k+1) < fuel := by
          have := restCount_chunk_step book c k hc hk
          omega
        have hrb := restBook_chunk_step book c k hk
        have hgi := gIndex_chunk_succ book c k hk
        have IH := ih c (k+1) (char - len) hc hkk (by omega) hfuel1
        by_cases hcond : char < (restBook book c k : Int)
        · rw [if_pos hcond]
          rw [if_pos (by omega)] at IH
          obtain ⟨c', k', x', hn, hloop, hg⟩ := IH
          exact ⟨c', k', x', hn, by rw [hrun, hloop], by omega⟩
        · rw [if_neg hcond]
          rw [if_neg (by omega)] at IH
          rw [hrun, IH]
      · -- the chapter is exhausted
        by_cases hcc : c + 1 < book.length
        · -- advance to the first chunk of the next chapter
          have hrow1 := rowOf_ne_nil hrow hcc
          have hrun : fwdLoop book (fuel+1) (c : Int) (k : Int) char
              = fwdLoop book fuel ((c + 1 : Nat) : Int) ((0 : Nat) : Int) (char - len) := by
            rw [fwdLoop]
            simp only [jsRow book c hc, Option.some_bind, jsIdx_of_lt (rowOf book c) k [] hk,
              Option.map_some', Option.getD_some, req_some, ok_bind, hgd]
            rw [if_pos (by omega), if_pos (by omega), if_neg (by omega)]
            norm_cast
          have hfuel1 : restCount book (c+1) 0 < fuel := by
            have h1 := restCount_chunk_step book c k hc hk
            have h2 := restCount_chap_step book c hcc
            rw [show k + 1 = (rowOf book c).length by omega] at h1
            omega
          have hrb := restBook_chap_step book c k hcc (by omega)
          have hgi := gIndex_chap_step book c k hc (by omega)
          have IH := ih (c+1) 0 (char - len) hcc hrow1 (by omega) hfuel1
          by_cases hcond : char < (restBook book c k : Int)
          · rw [if_pos hcond]
            rw [if_pos (by omega)] at IH
            obtain ⟨c', k', x', hn, hloop, hg⟩ := IH
            exact ⟨c', k', x', hn, by rw [hrun, hloop], by omega⟩
          · rw [if_neg hcond]
            rw [if_neg (by omega)] at IH
            rw [hrun, IH]
        · -- the book is exhausted: clamp at the last position
          have hclast : c + 1 = book.length := by omega
          have hlast_row : book.length - 1 < book.length := by omega
          have hrow1 := rowOf_ne_nil hrow hlast_row
          have hrun : fwdLoop book (fuel+1) (c : Int) (k : Int) char
              = .ok (lastPos book) := by
            rw [fwdLoop]
            simp only [jsRow book c hc, Option.some_bind, jsIdx_of_lt (rowOf book c) k [] hk,
              Option.map_some', Option.getD_some, req_some, ok_bind, hgd]
            rw [if_pos (by omega), if_pos (by omega), if_pos (by omega)]
            rw [show (book.length : Int) - 1 = ((book.length - 1 : Nat) : Int) by omega,
              jsRow book (book.length - 1) hlast_row, req_some, ok_bind]
            rw [show ((rowOf book (book.length - 1)).length : Int) - 1
                = (((rowOf book (book.length - 1)).length - 1 : Nat) : Int) by omega]
            simp only [jsIdx_of_lt (rowOf book (book.length - 1))
              ((rowOf book (book.length - 1)).length - 1) [] (by omega), req_some, ok_bind]
            simp only [lastPos, Except.ok.injEq, Prod.mk.injEq]
            refine ⟨by omega, by omega, rfl⟩
          have hrb := restBook_last book c k hclast (by omega)
          rw [if_neg (by omega), hrun]

theorem chunkOf_mem {book : Book} {c k : Nat} (hk : k < (rowOf book c).length) :
    chunkOf book c k ∈ rowOf book c := by
  rw [chunkOf, List.getD_eq_getElem (rowOf book c) [] hk]
  exact List.getElem_mem hk

theorem chunkOf_pos {book : Book} (hwf : WellFormedBook book) {c k : Nat}
    (hc : c < book.length) (hk : k < (rowOf book c).length) :
    0 < (chunkOf book c k).length :=
  List.length_pos.mpr ((hwf.2 _ (rowOf_mem hc)).2 _ (chunkOf_mem hk))

theorem book_length_pos (hwf : WellFormedBook book) : 0 < book.length :=
  List.length_pos.mpr hwf.1

theorem NormPos_origin (book : Book) (hwf : WellFormedBook book) :
    NormPos book 0 0 0 := by
  have h1 := book_length_pos hwf
  have h2 := rowOf_ne_nil (fun row hr => (hwf.2 row hr).1) h1
  exact ⟨h1, h2, chunkOf_pos hwf h1 h2⟩

theorem gIndex_origin (book : Book) : gIndex book 0 0 0 = 0 := by
  simp [gIndex, charsBeforeChap, charsBeforeChunk]

theorem bookChars_pos (book : Book) (hwf : WellFormedBook book) :
    0 < bookChars book := by
  have := gIndex_lt_bookChars book (NormPos_origin book hwf)
  omega

theorem restBook_zero (book : Book) : restBook book 0 0 = bookChars book := by
  cases book with
  | nil => simp [restBook, rowOf, sumLens, bookChars]
  | cons row rest => simp [restBook, rowOf, bookChars_cons]

/-- Full behaviour of the `skip` seek arithmetic on a well-formed book and
a §3-valid position: the offset is applied to the global character index,
clamping at `(0,0,0)` below and at `lastPos` at or above the total
character count, and otherwise landing on the unique normal-form position
with the shifted global index. -/
theorem skipPos_spec (book : Book) (hwf : WellFormedBook book)
    (c k x : Nat) (off : Int) (hc : c < book.length) (hk : k < (rowOf book c).length)
    (hx : x ≤ (chunkOf book c k).length) :
    (if (gIndex book c k x : Int) + off < 0 then
      skipPos book c k x off = .ok (0, 0, 0)
    else if (bookChars book : Int) ≤ (gIndex book c k x : Int) + off then
      skipPos book c k x off = .ok (lastPos book)
    else ∃ c' k' x' : Nat, NormPos book c' k' x' ∧
      skipPos book c k x off = .ok ((c' : Int), (k' : Int), (x' : Int)) ∧
      ((gIndex book c' k' x' : Nat) : Int) = (gIndex book c k x : Int) + off) := by
  have hrow : ∀ row ∈ book, row ≠ [] := fun row hr => (hwf.2 row hr).1
  have hfuelB : backCount book c k < skipFuel book := by
    have := backCount_le book c k hc (by omega)
    simp only [skipFuel]
    omega
  have hfuelF : restCount book c k < skipFuel book := by
    have := restCount_le book c k
    simp only [skipFuel]
    omega
  have hgx : gIndex book c k x = gIndex book c k 0 + x := gIndex_x ..
  have hgr := gIndex_add_restBook book c k hc
  have BS := backLoop_spec book hrow (skipFuel book) c k ((x : Int) + off) hc hk hfuelB
  by_cases hnn : 0 ≤ (x : Int) + off
  · rw [if_pos hnn] at BS
    have hrun : skipPos book c k x off
        = fwdLoop book (skipFuel book) (c : Int) (k : Int) ((x : Int) + off) := by
      rw [skipPos, BS]
      rfl
    have FS := fwdLoop_spec book hrow (skipFuel book) c k ((x : Int) + off) hc hk hnn hfuelF
    by_cases hcond : (x : Int) + off < (restBook book c k : Int)
    · rw [if_pos hcond] at FS
      obtain ⟨c', k', x', hn, hloop, hg⟩ := FS
      rw [if_neg (by omega), if_neg (by omega)]
      exact ⟨c', k', x', hn, by rw [hrun, hloop], by omega⟩
    · rw [if_neg hcond] at FS
      rw [if_neg (by omega), if_pos (by omega), hrun, FS]
  · -- the raw cursor goes negative: the backward loop walks or clamps
    rw [if_neg hnn] at BS
    by_cases hg : (gIndex book c k 0 : Int) + ((x : Int) + off) < 0
    · rw [if_pos hg] at BS
      have hrun : skipPos book c k x off
          = fwdLoop book (skipFuel book) 0 0 0 := by
        rw [skipPos, BS]
        rfl
      have h1 := book_length_pos hwf
      have h2 := rowOf_ne_nil hrow h1
      have hfuel0 : restCount book 0 0 < skipFuel book := by
        have := restCount_le book 0 0
        simp only [skipFuel]
        omega
      have FS := fwdLoop_spec book hrow (skipFuel book) 0 0 0 h1 h2 le_rfl hfuel0
      have hre := restBook_zero book
      have hbp := bookChars_pos book hwf
      rw [if_pos (show (0 : Int) < (restBook book 0 0 : Int) by omega)] at FS
      obtain ⟨c', k', x', hn, hloop, hg2⟩ := FS
      rw [gIndex_origin] at hg2
      have : c' = 0 ∧ k' = 0 ∧ x' = 0 :=
        gIndex_inj book hn (NormPos_origin book hwf) (by rw [gIndex_origin]; omega)
      obtain ⟨rfl, rfl, rfl⟩ := this
      rw [if_pos (by omega), hrun]
      rw [show ((0:Nat) : Int) = (0 : Int) from rfl] at hloop
      exact hloop
    · rw [if_neg hg] at BS
      obtain ⟨c1, k1, x1, hn1, hloop1, hg1⟩ := BS
      have hrun : skipPos book c k x off
          = fwdLoop book (skipFuel book) (c1 : Int) (k1 : Int) (x1 : Int) := by
        rw [skipPos, hloop1]
        rfl
      obtain ⟨hc1, hk1, hx1⟩ := hn1
      have hfuel1 : restCount book c1 k1 < skipFuel book := by
        have := restCount_le book c1 k1
        simp only [skipFuel]
        omega
      have hglt : gIndex book c1 k1 x1 < bookChars book :=
        gIndex_lt_bookChars book ⟨hc1, hk1, hx1⟩
      have hgx1 : gIndex book c1 k1 x1 = gIndex book c1 k1 0 + x1 := gIndex_x ..
      have hgr1 := gIndex_add_restBook book c1 k1 hc1
      have FS := fwdLoop_spec book hrow (skipFuel book) c1 k1 (x1 : Int) hc1 hk1
        (by omega) hfuel1
      rw [if_pos (by omega)] at FS
      obtain ⟨c', k', x', hn, hloop, hg2⟩ := FS
      rw [if_neg (by omega), if_neg (by omega)]
      exact ⟨c', k', x', hn, by rw [hrun, hloop], by omega⟩

/-- C4 (amended): on a well-formed book (every chapter chunked non-empty),
from a normal-form position (charIndex strictly inside the chunk), a
positive offset `+k` whose target stays strictly before the end of the
book, followed by `-k`, returns exactly the original position. -/
theorem skip_roundTrip (book : Book) (hwf : WellFormedBook book)
    (c k x : Nat) (hnorm : NormPos book c k x) (off : Int) (hpos : 0 < off)
    (hnoclamp : (gIndex book c k x : Int) + off < (bookChars book : Int)) :
    ∃ c' k' x' : Nat, NormPos book c' k' x' ∧
      skipPos book c k x off = .ok ((c' : Int), (k' : Int), (x' : Int)) ∧
      skipPos book c' k' x' (-off) = .ok ((c : Int), (k : Int), (x : Int)) := by
  obtain ⟨hc, hk, hx⟩ := hnorm
  have S1 := skipPos_spec book hwf c k x off hc hk (by omega)
  rw [if_neg (by omega), if_neg (by omega)] at S1
  obtain ⟨c', k', x', hn', hrun', hg'⟩ := S1
  refine ⟨c', k', x', hn', hrun', ?_⟩
  obtain ⟨hc', hk', hx'⟩ := hn'
  have S2 := skipPos_spec book hwf c' k' x' (-off) hc' hk' (by omega)
  have hgback : (gIndex book c' k' x' : Int) + (-off) = (gIndex book c k x : Int) := by
    omega
  have hglt : gIndex book c k x < bookChars book :=
    gIndex_lt_bookChars book ⟨hc, hk, hx⟩
  rw [if_neg (by omega), if_neg (by omega)] at S2
  obtain ⟨c2, k2, x2, hn2, hrun2, hg2⟩ := S2
  have : c2 = c ∧ k2 = k ∧ x2 = x :=
    gIndex_inj book hn2 ⟨hc, hk, hx⟩ (by omega)
  obtain ⟨rfl, rfl, rfl⟩ := this
  exact hrun2

/-- The concrete book for the C4 counterexample: one chapter with chunks
`"ab"`, `"cd"`, `"ef"`. -/
def c4book : Book := [[['a','b'], ['c','d'], ['e','f']]]

/-- C4 counterexample: position `(0,0,2)` satisfies the §3 bounds invariant
(`charIndex ≤ chunk.length`) and neither a `+1` nor a `-1` seek from it
clamps, yet seeking `+1` then `-1` lands on `(0,1,0)`, not `(0,0,2)`:
the loops normalise the boundary charIndex onto the next chunk. -/
theorem skip_roundTrip_cex :
    (2 ≤ (chunkOf c4book 0 0).length) ∧
    skipPos c4book 0 0 2 1 = .ok (0, 1, 1) ∧
    skipPos c4book 0 0 2 (-1) = .ok (0, 0, 1) ∧
    skipPos c4book 0 1 1 (-1) = .ok (0, 1, 0) ∧
    ¬(((0 : Int), (1 : Int), (0 : Int)) = ((0 : Int), (0 : Int), (2 : Int))) := by
  exact ⟨by decide, by decide, by decide, by decide, by decide⟩

/-- Witness for C4's amended round-trip theorem at a concrete position. -/
theorem skip_roundTrip_witness :
    WellFormedBook c4book ∧ NormPos c4book 0 0 1 ∧ (0 : Int) < 2 ∧
      (gIndex c4book 0 0 1 : Int) + 2 < (bookChars c4book : Int) ∧
      (∃ c' k' x' : Nat, NormPos c4book c' k' x' ∧
        skipPos c4book ((0:Nat) : Int) ((0:Nat) : Int) ((1:Nat) : Int) 2
          = .ok ((c' : Int), (k' : Int), (x' : Int)) ∧
        skipPos c4book (c' : Int) (k' : Int) (x' : Int) (-2)
          = .ok (((0:Nat) : Int), ((0:Nat) : Int), ((1:Nat) : Int))) :=
  ⟨by decide, by decide, by decide, by decide,
    skip_roundTrip c4book (by decide) 0 0 1 (by decide) 2 (by decide) (by decide)⟩

/-- The concrete book for the C3 failing input: chapter 1 produced zero
chunks (an empty chapter). -/
def c3book : Book := [[['a','b']], [], [['c','d']]]

/-- C3: at the §3-valid position `(0,0,0)` of `c3book` with offset `+3`,
the forward loop of `skip` enters the empty chapter 1 and evaluates
`chapterChunks[1][0].length` with `chapterChunks[1][0]` `undefined`:
the seek arithmetic throws instead of producing a clamped position. -/
theorem skip_empty_chapter_crash :
    skipPos c3book 0 0 0 3 = .error () ∧
    (0 < c3book.length ∧ 0 < (rowOf c3book 0).length ∧
      (0 : Nat) ≤ (chunkOf c3book 0 0).length) := by
  exact ⟨by decide, by decide, by decide, by decide⟩

/-! ### Narration driver state machine

State of the first `useSpeechSynthesis` hook version: the `useState` cells
plus the armed watchdog (segment it guards and its deadline, following the
duration-scaled deadline variant of `speak`).  Callbacks that read
`.length` of a possibly-`undefined` array entry return `Except Unit`. -/

/-- The sleep-timer setting: remaining seconds or the end-of-chapter
sentinel (`null` is `none` at the `Option` layer). -/
inductive SleepSetting where
  | seconds : Int → SleepSetting
  | endOfChapter : SleepSetting
  deriving DecidableEq, Repr

/-- The three-valued playback status of §3 of the specification. -/
inductive PlaybackStatus where
  | Idle
  | Speaking
  | Paused
  deriving DecidableEq, Repr

structure PlayerState where
  isSpeaking : Bool
  isPaused : Bool
  currentChapterIndex : Int
  currentChunkIndex : Int
  currentCharIndex : Int
  error : Option String
  playbackRate : ℚ
  sleepTimer : Option SleepSetting
  watchdog : Option (Int × Int × ℚ)
  deriving DecidableEq, Repr

/-- The status encoded by the two booleans. -/
def status (s : PlayerState) : PlaybackStatus :=
  if s.isSpeaking then .Speaking else if s.isPaused then .Paused else .Idle

/-- The `useState` initial values. -/
def initState : PlayerState :=
  { isSpeaking := false, isPaused := false, currentChapterIndex := 0,
    currentChunkIndex := 0, currentCharIndex := 0, error := none,
    playbackRate := 1, sleepTimer := none, watchdog := none }

/-- `clearWatchdog` (lines 137-142). -/
def clearWatchdog (s : PlayerState) : PlayerState := { s with watchdog := none }

/-- `pause` (lines 144-149): clear the watchdog, ask the engine to pause,
leave Speaking, enter Paused. -/
def pause (s : PlayerState) : PlayerState :=
  { clearWatchdog s with isSpeaking := false, isPaused := true }

/-- The duration-scaled watchdog deadline of the adopted variant
(`part_002` lines 216-217): estimated milliseconds at 15 chars/sec scaled
by the playback rate, plus a 10-second margin, floored at 5 seconds. -/
def watchdogTimeoutMs (textLen : Nat) (rate : ℚ) : ℚ :=
  max 5000 ((textLen : ℚ) / (15 * rate) * 1000 + 10000)

/-- `speak` (lines 151-222): clear the watchdog, slice the chunk text from
`charIdx`; a missing or empty slice stops playback, otherwise the utterance
is issued and the watchdog armed for this segment. -/
def speak (book : Book) (chapterIdx chunkIdx charIdx : Int) (s : PlayerState) :
    PlayerState :=
  let s := clearWatchdog s
  match ((jsIdx book chapterIdx).bind fun row => jsIdx row chunkIdx).map
      (fun ch => ch.drop charIdx.toNat) with
  | none => { s with isSpeaking := false }
  | some [] => { s with isSpeaking := false }
  | some text =>
    let wd := some (chapterIdx, chunkIdx, watchdogTimeoutMs text.length s.playbackRate)
    { s with watchdog := wd }

/-- The `utterance.onend` handler (lines 174-200), parametrised by the
chapter and chunk indices the utterance closure captured. -/
def onEnd (book : Book) (chapterIdx chunkIdx : Int) (s : PlayerState) :
    Except Unit PlayerState :=
  let s := clearWatchdog s
  if !s.isSpeaking then .ok s
  else do
    let row ← req (jsIdx book chapterIdx)
    let nextChunk := chunkIdx + 1
    if nextChunk < (row.length : Int) then
      .ok (speak book chapterIdx nextChunk 0
        { s with currentChunkIndex := nextChunk, currentCharIndex := 0 })
    else if s.sleepTimer = some .endOfChapter then
      .ok { pause s with sleepTimer := none }
    else
      let nextChapter := chapterIdx + 1
      if nextChapter < (book.length : Int) then
        .ok (speak book nextChapter 0 0
          { s with currentChapterIndex := nextChapter, currentChunkIndex := 0,
                   currentCharIndex := 0 })
      else .ok { s with isSpeaking := false }

/-- The error message of the first hook version's `onerror`. -/
def speechErrorMsg : String := "Ocurrió un error al leer el texto."

/-- The `utterance.onerror` handler of the first hook version (lines
202-207): it only logs the event object, then unconditionally sets the
error observable, clears the watchdog and stops — the reported kind is
never inspected. -/
def onError (kind : String) (s : PlayerState) : PlayerState :=
  { clearWatchdog { s with error := some speechErrorMsg } with isSpeaking := false }

/-- `cancel` of the second hook version (lines 641-654): clear the
watchdog, cancel the engine, reset both flags and the highlight index (it
also persists progress). -/
def cancelV2 (s : PlayerState) : PlayerState :=
  { s with watchdog := none, isSpeaking := false, isPaused := false,
           currentCharIndex := 0 }

/-- The error message of the second hook version's `onerror`. -/
def speechErrorMsgV2 (kind : String) : String :=
  "Ocurrió un error en la síntesis de voz: " ++ kind

/-- The `utterance.onerror` handler of the second hook version (lines
738-748): `interrupted` and `canceled` are expected results of the
driver's own cancel-then-restart pattern and are swallowed; any other kind
is surfaced and playback cancelled. -/
def onErrorV2 (kind : String) (s : PlayerState) : PlayerState :=
  if kind = "interrupted" ∨ kind = "canceled" then s
  else cancelV2 { s with error := some (speechErrorMsgV2 kind) }

/-- `play` (lines 237-253): clear the error, seed the position, enter
Speaking, cancel the engine and (after the debounce, when the staleness
check still sees Speaking) issue the narration. -/
def play (book : Book) (chapterIdx chunkIdx : Int) (s : PlayerState) : PlayerState :=
  let s := { s with error := none, currentChapterIndex := chapterIdx,
                    currentChunkIndex := chunkIdx, currentCharIndex := 0,
                    isPaused := false, isSpeaking := true }
  if s.isSpeaking then speak book chapterIdx chunkIdx 0 s else s

/-- `resume` (lines 255-260). -/
def resume (s : PlayerState) : PlayerState :=
  { s with error := none, isSpeaking := true, isPaused := false }

/-- `jumpToChapter` (lines 262-278). -/
def jumpToChapter (book : Book) (chapterIdx : Int) (playOnJump : Bool)
    (s : PlayerState) : PlayerState :=
  let s := { s with currentChapterIndex := chapterIdx, currentChunkIndex := 0,
                    currentCharIndex := 0, isPaused := false,
                    isSpeaking := playOnJump }
  if playOnJump then (if s.isSpeaking then speak book chapterIdx 0 0 s else s) else s

/-- The tail of `skip` after the seek arithmetic produced position `p`
(lines 325-342): store the new position, resume from Paused, and — after
the debounce, when the staleness check still sees Speaking — re-issue
narration from `p`. -/
def skipFinish (book : Book) (p : Int × Int × Int) (s : PlayerState) :
    PlayerState :=
  let s1 := { s with currentChapterIndex := p.1, currentChunkIndex := p.2.1,
                     currentCharIndex := p.2.2 }
  let s2 := if s.isPaused = true then { s1 with isPaused := false, isSpeaking := true }
    else s1
  if s2.isSpeaking = true then speak book p.1 p.2.1 p.2.2 s2 else s2

/-- `skip` (lines 292-343) at the state level: no-op unless speaking or
paused; convert seconds to a character offset at 15 chars/sec scaled by
the rate, run the seek arithmetic, then `skipFinish`. -/
def skipStep (book : Book) (seconds : ℚ) (s : PlayerState) :
    Except Unit PlayerState :=
  if !s.isSpeaking && !s.isPaused then .ok s
  else do
    let p ← skipPos book s.currentChapterIndex s.currentChunkIndex
      s.currentCharIndex (round (seconds * 15 * s.playbackRate))
    .ok (skipFinish book p s)

/-- The watchdog firing (`part_002` lines 218-223): when the deadline
elapses with the armed utterance still current and the engine still
nominally speaking — i.e. neither a progress nor a completion signal
dismantled it — it invokes the utterance's own `onend` handler. -/
def watchdogFire (book : Book) (chapterIdx chunkIdx : Int)
    (isCurrentUtterance engineSpeaking : Bool) (s : PlayerState) :
    Except Unit PlayerState :=
  if isCurrentUtterance && engineSpeaking then onEnd book chapterIdx chunkIdx s
  else .ok s

/-- The body of the sleep-timer effect (lines 356-365): while Speaking
with a numeric value, a non-positive value pauses and clears the timer. -/
def sleepTimerEffect (s : PlayerState) : PlayerState :=
  match s.sleepTimer with
  | some (.seconds n) =>
    if s.isSpeaking then
      if n ≤ 0 then { pause s with sleepTimer := none } else s
    else s
  | _ => s

/-- One one-second tick: the interval (armed only while Speaking with a
positive numeric value) decrements the timer, and the effect re-runs on
the new value. -/
def sleepTimerTick (s : PlayerState) : PlayerState :=
  match s.sleepTimer with
  | some (.seconds n) =>
    if s.isSpeaking = true ∧ 0 < n then
      sleepTimerEffect { s with sleepTimer := some (.seconds (n - 1)) }
    else s
  | _ => s

/-! ### Progress persistence -/

/-- The persisted progress record: the JSON blob written by the save
effect has exactly the fields `currentChapterIndex` and
`currentChunkIndex` (`Option` models a field that is absent or not a
number in a foreign blob). -/
structure StoredProgress where
  currentChapterIndex : Option Int
  currentChunkIndex : Option Int
  deriving DecidableEq, Repr

/-- The record written by the save effect (lines 86-93). -/
def saveProgress (s : PlayerState) : StoredProgress :=
  { currentChapterIndex := some s.currentChapterIndex,
    currentChunkIndex := some s.currentChunkIndex }

/-- The save effect itself: it stores the record only while speaking or
paused. -/
def saveEffect (s : PlayerState) : Option StoredProgress :=
  if s.isSpeaking || s.isPaused then some (saveProgress s) else none

/-- The load effect (lines 64-83).  `none`: no blob stored under the key;
`some none`: a blob whose `JSON.parse` throws (caught, state untouched);
`some (some p)`: a parsed object — it seeds the position only when its
`currentChapterIndex` is a number, taking `currentChunkIndex ?? 0`, with
no clamping or validation, and never touches `currentCharIndex`. -/
def loadProgress (saved : Option (Option StoredProgress)) (s : PlayerState) :
    PlayerState :=
  match saved with
  | none => s
  | some none => s
  | some (some p) =>
    match p.currentChapterIndex with
    | some n => { s with currentChapterIndex := n,
                         currentChunkIndex := p.currentChunkIndex.getD 0 }
    | none => s

/-- The §3 bounds invariant on the state's Position. -/
def PosInvariant (book : Book) (s : PlayerState) : Prop :=
  0 ≤ s.currentChapterIndex ∧ s.currentChapterIndex < (book.length : Int) ∧
  0 ≤ s.currentChunkIndex ∧
  (s.currentChunkIndex < ((rowOf book s.currentChapterIndex.toNat).length : Int) ∨
    ((rowOf book s.currentChapterIndex.toNat).length = 0 ∧ s.currentChunkIndex = 0)) ∧
  0 ≤ s.currentCharIndex ∧
  s.currentCharIndex ≤
    ((chunkOf book s.currentChapterIndex.toNat s.currentChunkIndex.toNat).length : Int)

/-! ### Driver lemmas and claim theorems -/

theorem speak_fields (book : Book) (ci ki xi : Int) (s : PlayerState) :
    (speak book ci ki xi s).currentChapterIndex = s.currentChapterIndex ∧
    (speak book ci ki xi s).currentChunkIndex = s.currentChunkIndex ∧
    (speak book ci ki xi s).currentCharIndex = s.currentCharIndex ∧
    (speak book ci ki xi s).isPaused = s.isPaused ∧
    (speak book ci ki xi s).error = s.error ∧
    (speak book ci ki xi s).sleepTimer = s.sleepTimer ∧
    ((speak book ci ki xi s).isSpeaking = s.isSpeaking ∨
      (speak book ci ki xi s).isSpeaking = false) := by
  unfold speak
  split <;> simp [clearWatchdog]

theorem speak_watchdog (book : Book) (ci ki xi : Int) (s : PlayerState) :
    (speak book ci ki xi s).watchdog = none ∨
    ∃ d, (speak book ci ki xi s).watchdog = some (ci, ki, d) := by
  unfold speak
  split <;> simp [clearWatchdog]

/-- C2 (amended): an engine end-of-segment while Speaking, for the
utterance matching the current position: with more chunks in the chapter,
`currentChunkIndex` advances by exactly 1 and `currentCharIndex` resets
to 0; with no chunks and no chapters remaining — provided the sleep timer
is not the end-of-chapter sentinel, which pauses instead — status becomes
Idle and the chapter/chunk indices keep their last values. -/
theorem onEnd_spec (book : Book) (s : PlayerState) (ci ki : Int)
    (row : List (List Char))
    (hsp : s.isSpeaking = true) (hp : s.isPaused = false)
    (hci : s.currentChapterIndex = ci) (hki : s.currentChunkIndex = ki)
    (hrow : jsIdx book ci = some row) :
    (ki + 1 < (row.length : Int) →
      ∃ s', onEnd book ci ki s = .ok s' ∧
        s'.currentChunkIndex = s.currentChunkIndex + 1 ∧
        s'.currentCharIndex = 0) ∧
    (¬(ki + 1 < (row.length : Int)) → ¬(ci + 1 < (book.length : Int)) →
      s.sleepTimer ≠ some .endOfChapter →
      ∃ s', onEnd book ci ki s = .ok s' ∧ status s' = .Idle ∧
        s'.currentChapterIndex = s.currentChapterIndex ∧
        s'.currentChunkIndex = s.currentChunkIndex) := by
  constructor
  · intro hmore
    refine ⟨speak book ci (ki + 1) 0
      { clearWatchdog s with currentChunkIndex := ki + 1, currentCharIndex := 0 }, ?_, ?_, ?_⟩
    · rw [onEnd]
      simp only [clearWatchdog, hsp, Bool.not_true, Bool.false_eq_true, if_false,
        hrow, req_some, ok_bind]
      rw [if_pos hmore]
    · have h := (speak_fields book ci (ki + 1) 0
        { clearWatchdog s with currentChunkIndex := ki + 1, currentCharIndex := 0 }).2.1
      rw [h, hki]
    · exact (speak_fields book ci (ki + 1) 0
        { clearWatchdog s with currentChunkIndex := ki + 1, currentCharIndex := 0 }).2.2.1
  · intro hnochunk hnochap hsleep
    refine ⟨{ clearWatchdog s with isSpeaking := false }, ?_, ?_, rfl, rfl⟩
    · rw [onEnd]
      simp only [clearWatchdog, hsp, Bool.not_true, Bool.false_eq_true, if_false,
        hrow, req_some, ok_bind]
      rw [if_neg hnochunk, if_neg (by simpa [clearWatchdog] using hsleep), if_neg hnochap]
    · simp [status, clearWatchdog, hp]

/-- The concrete book and state for the C2 counterexample: one chapter of
one chunk, Speaking, with the end-of-chapter sleep sentinel set. -/
def c2book : Book := [[['a']]]

def c2state : PlayerState :=
  { initState with isSpeaking := true, sleepTimer := some .endOfChapter }

/-- C2 counterexample: an end-of-segment at the last chunk of the last
chapter while the sleep timer holds the end-of-chapter sentinel pauses —
status becomes Paused, not Idle as the claim states. -/
theorem onEnd_sentinel_cex :
    onEnd c2book 0 0 c2state
      = .ok { c2state with isSpeaking := false, isPaused := true,
                           sleepTimer := none, watchdog := none } ∧
    status { c2state with isSpeaking := false, isPaused := true,
                          sleepTimer := none, watchdog := none } = .Paused ∧
    PlaybackStatus.Paused ≠ PlaybackStatus.Idle := by
  refine ⟨by decide, by decide, by decide⟩

/-- Witness for C2 at a concrete book and state. -/
def c2BookW : Book := [[['a'], ['b']]]

theorem onEnd_spec_witness :
    ({ initState with isSpeaking := true } : PlayerState).isSpeaking = true ∧
    ({ initState with isSpeaking := true } : PlayerState).isPaused = false ∧
    jsIdx c2BookW 0 = some [['a'], ['b']] ∧
    ((0 : Int) + 1 < (([['a'], ['b']] : List (List Char)).length : Int)) ∧
    (∃ s', onEnd c2BookW 0 0 { initState with isSpeaking := true } = .ok s' ∧
      s'.currentChunkIndex
        = ({ initState with isSpeaking := true } : PlayerState).currentChunkIndex + 1 ∧
      s'.currentCharIndex = 0) :=
  ⟨by decide, by decide, by decide, by decide,
    (onEnd_spec c2BookW { initState with isSpeaking := true } 0 0 [['a'], ['b']]
      rfl rfl rfl rfl (by decide)).1 (by decide)⟩

/-- C5 counterexample: in the first hook version the error handler ignores
the reported kind entirely, so an `interrupted` error raised by the
driver's own cancel-then-restart pattern does set the error observable. -/
theorem onError_interrupted_cex :
    (onError "interrupted" initState).error = some speechErrorMsg ∧
    some speechErrorMsg ≠ (none : Option String) :=
  ⟨rfl, by simp⟩

/-- C5 (amended): in the second hook version, an engine error of kind
`interrupted` or `canceled` is fully swallowed (the handler returns the
state unchanged, so the error observable is untouched), and any other
kind sets the error observable and forces status Idle; in the first hook
version, the handler sets the error observable and clears `isSpeaking`
for every kind, including `interrupted` and `canceled`. -/
theorem onError_spec (kind : String) (s : PlayerState) :
    ((kind = "interrupted" ∨ kind = "canceled") → onErrorV2 kind s = s) ∧
    (¬(kind = "interrupted" ∨ kind = "canceled") →
      (onErrorV2 kind s).error = some (speechErrorMsgV2 kind) ∧
      status (onErrorV2 kind s) = .Idle) ∧
    ((onError kind s).error = some speechErrorMsg ∧
      (onError kind s).isSpeaking = false) := by
  refine ⟨?_, ?_, rfl, rfl⟩
  · intro h
    rw [onErrorV2, if_pos h]
  · intro h
    rw [onErrorV2, if_neg h]
    exact ⟨rfl, rfl⟩

/-- Witness for C5 at the two concrete kinds. -/
theorem onError_spec_witness :
    (("interrupted" = "interrupted" ∨ "interrupted" = "canceled") ∧
      onErrorV2 "interrupted" initState = initState) ∧
    (¬("network" = "interrupted" ∨ "network" = "canceled") ∧
      (onErrorV2 "network" initState).error = some (speechErrorMsgV2 "network") ∧
      status (onErrorV2 "network" initState) = .Idle) :=
  ⟨⟨Or.inl rfl, (onError_spec "interrupted" initState).1 (Or.inl rfl)⟩,
    ⟨by decide, (onError_spec "network" initState).2.1 (by decide)⟩⟩

theorem onEnd_watchdog (book : Book) (ci ki : Int) (s : PlayerState) :
    ∀ s', onEnd book ci ki s = .ok s' →
      s'.watchdog = none ∨ (∃ d, s'.watchdog = some (ci, ki + 1, d)) ∨
      (∃ d, s'.watchdog = some (ci + 1, 0, d)) := by
  intro s' h
  rw [onEnd] at h
  by_cases hsp : s.isSpeaking = true
  · simp only [clearWatchdog, hsp, Bool.not_true, Bool.false_eq_true, if_false] at h
    cases hj : jsIdx book ci with
    | none =>
      rw [hj, req_none, error_bind] at h
      exact absurd h (by simp)
    | some row =>
      rw [hj, req_some, ok_bind] at h
      by_cases h1 : ki + 1 < (row.length : Int)
      · rw [if_pos h1] at h
        cases h
        rcases speak_watchdog book ci (ki + 1) 0
            { s with isSpeaking := true, watchdog := none,
                     currentChunkIndex := ki + 1, currentCharIndex := 0 }
          with hw | ⟨d, hw⟩
        · exact Or.inl hw
        · exact Or.inr (Or.inl ⟨d, hw⟩)
      · rw [if_neg h1] at h
        by_cases h2 : ({ s with watchdog := none } : PlayerState).sleepTimer
            = some SleepSetting.endOfChapter
        · rw [if_pos h2] at h
          cases h
          exact Or.inl rfl
        · rw [if_neg h2] at h
          by_cases h3 : ci + 1 < (book.length : Int)
          · rw [if_pos h3] at h
            cases h
            rcases speak_watchdog book (ci + 1) 0 0
                { s with isSpeaking := true, watchdog := none, currentChapterIndex := ci + 1,
                         currentChunkIndex := 0, currentCharIndex := 0 }
              with hw | ⟨d, hw⟩
            · exact Or.inl hw
            · exact Or.inr (Or.inr ⟨d, hw⟩)
          · rw [if_neg h3] at h
            cases h
            exact Or.inl rfl
  · simp only [clearWatchdog, Bool.not_eq_true] at hsp
    simp only [clearWatchdog, hsp, Bool.not_false, if_true] at h
    cases h
    exact Or.inl rfl

/-- C6: when the duration-scaled watchdog armed for the current segment
(deadline `max(5000, textLen/(15*rate)*1000 + 10000)` ms) fires — no
progress or completion signal dismantled it, the utterance is still
current and the engine still nominally speaking — it performs exactly the
transition of a real engine end-of-segment event from that state, and the
watchdog armed for the stalled segment is gone from the resulting state. -/
theorem watchdog_end_equiv (book : Book) (ci ki : Int) (L : Nat) (s : PlayerState)
    (harm : s.watchdog = some (ci, ki, watchdogTimeoutMs L s.playbackRate)) :
    watchdogFire book ci ki true true s = onEnd book ci ki s ∧
    (∀ s', onEnd book ci ki s = .ok s' → s'.watchdog ≠ s.watchdog) := by
  constructor
  · rw [watchdogFire]
    rfl
  · intro s' h
    rcases onEnd_watchdog book ci ki s s' h with hw | ⟨d, hw⟩ | ⟨d, hw⟩ <;>
      rw [hw, harm]
    · simp
    · simp only [Option.some.injEq, Prod.mk.injEq, ne_eq]
      intro ⟨h1, h2, h3⟩
      omega
    · simp only [Option.some.injEq, Prod.mk.injEq, ne_eq]
      intro ⟨h1, h2, h3⟩
      omega

/-- Witness for C6 at a concrete armed state. -/
def c6state : PlayerState :=
  { initState with isSpeaking := true,
                   watchdog := some (0, 0, watchdogTimeoutMs 2 1) }

theorem watchdog_end_equiv_witness :
    c6state.watchdog = some (0, 0, watchdogTimeoutMs 2 c6state.playbackRate) ∧
    (watchdogFire c2BookW 0 0 true true c6state = onEnd c2BookW 0 0 c6state ∧
      (∀ s', onEnd c2BookW 0 0 c6state = .ok s' → s'.watchdog ≠ c6state.watchdog)) :=
  ⟨rfl, watchdog_end_equiv c2BookW 0 0 2 c6state rfl⟩

theorem sleepTimerEffect_eq (t : PlayerState) (n : Int)
    (h : t.sleepTimer = some (.seconds n)) :
    sleepTimerEffect t = if t.isSpeaking = true then
      (if n ≤ 0 then { pause t with sleepTimer := none } else t) else t := by
  rw [sleepTimerEffect, h]

theorem sleepTimerTick_eq (t : PlayerState) (n : Int)
    (h : t.sleepTimer = some (.seconds n)) :
    sleepTimerTick t = if t.isSpeaking = true ∧ 0 < n then
      sleepTimerEffect { t with sleepTimer := some (.seconds (n - 1)) } else t := by
  rw [sleepTimerTick, h]

theorem sleepTimerTick_other (t : PlayerState)
    (h : t.sleepTimer = none ∨ t.sleepTimer = some .endOfChapter) :
    sleepTimerTick t = t := by
  rcases h with h | h <;> rw [sleepTimerTick, h]

theorem sleepTimer_countdown (m : Nat) :
    0 < m → ∀ s : PlayerState, s.isSpeaking = true →
      s.sleepTimer = some (.seconds (m : Int)) →
      status (sleepTimerTick^[m] s) = .Paused ∧
      (sleepTimerTick^[m] s).sleepTimer = none := by
  induction m with
  | zero => intro hm; omega
  | succ m ih =>
    intro _ s hs ht
    have hcast : ((m + 1 : Nat) : Int) - 1 = (m : Int) := by push_cast; ring
    rw [Function.iterate_succ_apply, sleepTimerTick_eq s ((m + 1 : Nat) : Int) ht,
      if_pos ⟨hs, by push_cast; omega⟩, hcast]
    by_cases hm0 : m = 0
    · subst hm0
      rw [sleepTimerEffect_eq _ ((0 : Nat) : Int) rfl,
        if_pos (show ({ s with sleepTimer := some (.seconds ((0:Nat) : Int)) }
          : PlayerState).isSpeaking = true from hs),
        if_pos (by omega)]
      simp [status, pause, clearWatchdog]
    · rw [sleepTimerEffect_eq _ (m : Int) rfl,
        if_pos (show ({ s with sleepTimer := some (.seconds (m : Int)) }
          : PlayerState).isSpeaking = true from hs),
        if_neg (by omega)]
      exact ih (by omega) _ hs rfl

/-- C7: from any Speaking state with the sleep timer set to 30, thirty
one-second ticks leave the driver Paused with the timer absent; and a tick
is a no-op whenever the status is not Speaking (the interval is only armed
while Speaking). -/
theorem sleepTimer_spec (s : PlayerState) (hs : s.isSpeaking = true)
    (ht : s.sleepTimer = some (.seconds 30)) :
    status (sleepTimerTick^[30] s) = .Paused ∧
    (sleepTimerTick^[30] s).sleepTimer = none ∧
    (∀ s2 : PlayerState, s2.isSpeaking = false → sleepTimerTick s2 = s2) := by
  have h := sleepTimer_countdown 30 (by omega) s hs (by exact_mod_cast ht)
  refine ⟨h.1, h.2, ?_⟩
  intro s2 h2
  cases hm : s2.sleepTimer with
  | none => exact sleepTimerTick_other s2 (Or.inl hm)
  | some v =>
    cases v with
    | seconds n => rw [sleepTimerTick_eq s2 n hm, if_neg (by simp [h2])]
    | endOfChapter => exact sleepTimerTick_other s2 (Or.inr hm)

/-- Witness for C7 at a concrete Speaking state. -/
def c7state : PlayerState :=
  { initState with isSpeaking := true, sleepTimer := some (.seconds 30) }

theorem sleepTimer_spec_witness :
    c7state.isSpeaking = true ∧ c7state.sleepTimer = some (.seconds 30) ∧
    (status (sleepTimerTick^[30] c7state) = .Paused ∧
      (sleepTimerTick^[30] c7state).sleepTimer = none ∧
      (∀ s2 : PlayerState, s2.isSpeaking = false → sleepTimerTick s2 = s2)) :=
  ⟨rfl, rfl, sleepTimer_spec c7state rfl rfl⟩

/-- C8: the save effect fires in the Paused state and its record holds
only the chapter and chunk indices — it is unchanged under any change of
`currentCharIndex` — and loading that record into a fresh state seeds
`(chapterIndex, chunkIndex)` while `charIndex` stays 0. -/
theorem persistence_spec (s : PlayerState) (hp : status s = .Paused) :
    saveEffect s = some (saveProgress s) ∧
    (∀ s2 : PlayerState, ∀ x : Int,
      saveProgress { s2 with currentCharIndex := x } = saveProgress s2) ∧
    (loadProgress (some (some (saveProgress s))) initState).currentChapterIndex
      = s.currentChapterIndex ∧
    (loadProgress (some (some (saveProgress s))) initState).currentChunkIndex
      = s.currentChunkIndex ∧
    (loadProgress (some (some (saveProgress s))) initState).currentCharIndex = 0 := by
  have hpb : s.isSpeaking = false ∧ s.isPaused = true := by
    rw [status] at hp
    by_cases h1 : s.isSpeaking = true
    · rw [if_pos h1] at hp; cases hp
    · rw [if_neg h1] at hp
      by_cases h2 : s.isPaused = true
      · exact ⟨by simpa using h1, h2⟩
      · rw [if_neg h2] at hp; cases hp
  refine ⟨?_, fun s2 x => rfl, rfl, rfl, rfl⟩
  rw [saveEffect, if_pos (by rw [hpb.1, hpb.2]; rfl)]

/-- Witness for C8: pausing at `(2, 5, 7)` and reloading seeds `(2, 5, 0)`. -/
def c8state : PlayerState :=
  { initState with isPaused := true, currentChapterIndex := 2,
                   currentChunkIndex := 5, currentCharIndex := 7 }

theorem persistence_spec_witness :
    status c8state = .Paused ∧
    (saveEffect c8state = some (saveProgress c8state) ∧
      (∀ s2 : PlayerState, ∀ x : Int,
        saveProgress { s2 with currentCharIndex := x } = saveProgress s2) ∧
      (loadProgress (some (some (saveProgress c8state))) initState).currentChapterIndex
        = c8state.currentChapterIndex ∧
      (loadProgress (some (some (saveProgress c8state))) initState).currentChunkIndex
        = c8state.currentChunkIndex ∧
      (loadProgress (some (some (saveProgress c8state))) initState).currentCharIndex
        = 0) :=
  ⟨rfl, persistence_spec c8state rfl⟩

/-- The two playback booleans never both hold: this is the §3 three-valued
status invariant. -/
def StatusOk (s : PlayerState) : Prop := ¬(s.isSpeaking = true ∧ s.isPaused = true)

instance (s : PlayerState) : Decidable (StatusOk s) := by
  unfold StatusOk; infer_instance

theorem speak_statusOk (book : Book) (ci ki xi : Int) {s : PlayerState}
    (h : StatusOk s) : StatusOk (speak book ci ki xi s) := by
  have hf := (speak_fields book ci ki xi s).2.2.2.1
  rcases (speak_fields book ci ki xi s).2.2.2.2.2.2 with hsp | hsp <;>
    · intro ⟨h1, h2⟩
      rw [hsp] at h1
      rw [hf] at h2
      first
        | exact h ⟨h1, h2⟩
        | cases h1

theorem statusOk_of_paused_false {t : PlayerState} (h : t.isPaused = false) :
    StatusOk t := by
  intro hc
  rw [h] at hc
  cases hc.2

theorem statusOk_of_speaking_false {t : PlayerState} (h : t.isSpeaking = false) :
    StatusOk t := by
  intro hc
  rw [h] at hc
  cases hc.1

theorem skipFinish_statusOk (book : Book) (p : Int × Int × Int) (s : PlayerState) :
    StatusOk (skipFinish book p s) := by
  simp only [skipFinish]
  by_cases hps : s.isPaused = true
  · rw [if_pos hps]
    split
    · exact speak_statusOk book p.1 p.2.1 p.2.2 (statusOk_of_paused_false rfl)
    · exact statusOk_of_paused_false rfl
  · rw [if_neg hps]
    split
    · exact speak_statusOk book p.1 p.2.1 p.2.2
        (statusOk_of_paused_false (by simpa using hps))
    · exact statusOk_of_paused_false (by simpa using hps)

theorem onEnd_statusOk (book : Book) (ci ki : Int) (s s' : PlayerState)
    (hok : StatusOk s) (h : onEnd book ci ki s = .ok s') : StatusOk s' := by
  rw [onEnd] at h
  by_cases hsp : s.isSpeaking = true
  · have hpf : s.isPaused = false := by
      cases hb : s.isPaused
      · rfl
      · exact absurd ⟨hsp, hb⟩ hok
    simp only [clearWatchdog, hsp, Bool.not_true, Bool.false_eq_true, if_false] at h
    cases hj : jsIdx book ci with
    | none =>
      rw [hj, req_none, error_bind] at h
      cases h
    | some row =>
      rw [hj, req_some, ok_bind] at h
      by_cases h1 : ki + 1 < (row.length : Int)
      · rw [if_pos h1] at h
        cases h
        exact speak_statusOk book ci (ki + 1) 0 (statusOk_of_paused_false hpf)
      · rw [if_neg h1] at h
        by_cases h2 : ({ s with watchdog := none } : PlayerState).sleepTimer
            = some SleepSetting.endOfChapter
        · rw [if_pos h2] at h
          cases h
          exact statusOk_of_speaking_false rfl
        · rw [if_neg h2] at h
          by_cases h3 : ci + 1 < (book.length : Int)
          · rw [if_pos h3] at h
            cases h
            exact speak_statusOk book (ci + 1) 0 0 (statusOk_of_paused_false hpf)
          · rw [if_neg h3] at h
            cases h
            exact statusOk_of_speaking_false rfl
  · simp only [clearWatchdog, Bool.not_eq_true] at hsp
    simp only [clearWatchdog, hsp, Bool.not_false, if_true] at h
    cases h
    intro hc
    exact hok ⟨by simpa using hc.1, by simpa using hc.2⟩

/-- C9: the predicate "not (isSpeaking and isPaused)" holds initially and
is preserved by every operation and callback of the driver — `play`,
`pause`, `resume`, `jumpToChapter`, `skip`, engine end, engine error (both
hook versions), and the sleep-timer tick — so the two booleans always
encode exactly one `PlaybackStatus`. -/
theorem statusOk_invariant (book : Book) :
    StatusOk initState ∧
    (∀ s ci ki, StatusOk (play book ci ki s)) ∧
    (∀ s : PlayerState, StatusOk (pause s)) ∧
    (∀ s : PlayerState, StatusOk (resume s)) ∧
    (∀ s ci b, StatusOk (jumpToChapter book ci b s)) ∧
    (∀ s sec s', StatusOk s → skipStep book sec s = .ok s' → StatusOk s') ∧
    (∀ s ci ki s', StatusOk s → onEnd book ci ki s = .ok s' → StatusOk s') ∧
    (∀ s kind, StatusOk (onError kind s)) ∧
    (∀ s kind, StatusOk s → StatusOk (onErrorV2 kind s)) ∧
    (∀ s : PlayerState, StatusOk s → StatusOk (sleepTimerTick s)) := by
  refine ⟨by decide, ?_, ?_, ?_, ?_, ?_, ?_, ?_, ?_, ?_⟩
  · intro s ci ki
    rw [play]
    exact speak_statusOk book ci ki 0 (statusOk_of_paused_false rfl)
  · intro s
    exact statusOk_of_speaking_false rfl
  · intro s
    exact statusOk_of_paused_false rfl
  · intro s ci b
    rw [jumpToChapter]
    cases b with
    | false => exact statusOk_of_paused_false rfl
    | true =>
      simp only [if_true]
      exact speak_statusOk book ci 0 0 (statusOk_of_paused_false rfl)
  · intro s sec s' hok h
    rw [skipStep] at h
    by_cases hidle : (!s.isSpeaking && !s.isPaused) = true
    · rw [if_pos hidle] at h
      cases h
      exact hok
    · rw [if_neg hidle] at h
      cases hsp : skipPos book s.currentChapterIndex s.currentChunkIndex
          s.currentCharIndex (round (sec * 15 * s.playbackRate)) with
      | error e =>
        cases e
        rw [hsp, error_bind] at h
        cases h
      | ok p =>
        simp only [hsp, ok_bind, Except.ok.injEq] at h
        rw [← h]
        exact skipFinish_statusOk book p s
  · intro s ci ki s' hok h
    exact onEnd_statusOk book ci ki s s' hok h
  · intro s kind
    exact statusOk_of_speaking_false rfl
  · intro s kind hok
    rw [onErrorV2]
    split
    · exact hok
    · exact statusOk_of_paused_false rfl
  · intro s hok
    cases hm : s.sleepTimer with
    | none => rw [sleepTimerTick_other s (Or.inl hm)]; exact hok
    | some v =>
      cases v with
      | endOfChapter => rw [sleepTimerTick_other s (Or.inr hm)]; exact hok
      | seconds n =>
        rw [sleepTimerTick_eq s n hm]
        split
        · rw [sleepTimerEffect_eq _ (n - 1) rfl]
          split
          · split
            · exact statusOk_of_speaking_false rfl
            · exact hok
          · exact hok
        · exact hok

/-- Witness for C9: the invariant transported across concrete operations,
discharging the invariant hypothesis at the initial state. -/
theorem statusOk_invariant_witness :
    StatusOk initState ∧ StatusOk (play c2BookW 0 0 initState) ∧
    StatusOk (onErrorV2 "network" initState) ∧
    StatusOk (sleepTimerTick initState) :=
  ⟨(statusOk_invariant c2BookW).1,
    (statusOk_invariant c2BookW).2.1 initState 0 0,
    (statusOk_invariant c2BookW).2.2.2.2.2.2.2.2.1 initState "network" (by decide),
    (statusOk_invariant c2BookW).2.2.2.2.2.2.2.2.2 initState (by decide)⟩

/-- C10: loading a persisted blob that parses with a numeric
`currentChapterIndex` `n` copies `n` verbatim (and the stored chunk index,
or 0 when absent) with no clamping against the current book, so `n` at or
beyond the chapter count seeds a Position violating the §3 bounds
invariant. -/
theorem loadProgress_spec (blob : StoredProgress) (n : Int) (s0 : PlayerState)
    (hn : blob.currentChapterIndex = some n) :
    (loadProgress (some (some blob)) s0).currentChapterIndex = n ∧
    (loadProgress (some (some blob)) s0).currentChunkIndex
      = blob.currentChunkIndex.getD 0 ∧
    (∀ book : Book, (book.length : Int) ≤ n →
      ¬ PosInvariant book (loadProgress (some (some blob)) s0)) := by
  rw [loadProgress, hn]
  refine ⟨rfl, rfl, ?_⟩
  intro book hlen hinv
  have h2 := hinv.2.1
  simp only at h2
  omega

/-- Witness for C10: a stale blob with chapter index 5 seeds an
out-of-bounds Position on a one-chapter book. -/
def c10blob : StoredProgress := { currentChapterIndex := some 5, currentChunkIndex := none }

theorem loadProgress_spec_witness :
    c10blob.currentChapterIndex = some 5 ∧
    ((loadProgress (some (some c10blob)) initState).currentChapterIndex = 5 ∧
      (loadProgress (some (some c10blob)) initState).currentChunkIndex
        = c10blob.currentChunkIndex.getD 0 ∧
      (∀ book : Book, (book.length : Int) ≤ 5 →
        ¬ PosInvariant book (loadProgress (some (some c10blob)) initState))) :=
  ⟨rfl, loadProgress_spec c10blob 5 initState rfl⟩

end Lukpa
